import Mathlib

/-!
# Verification of the ASR transcript post-processing pipeline

A shallow embedding of the text-normalization pipeline of
`src/asr_service/postprocess.py` (and the near-duplicate copy in
`src/funasr/utils.py`) together with the speaker-segment merger, and proofs
about the claims of the natural-language specification.

Strings are modelled as `List Char`.  Each `re.sub` call of the source is
modelled as a left-to-right scan (`subst`) parameterised by a matcher that,
given the current suffix of the text, either fails or returns the length of
the matched text (minus one) together with the replacement, mirroring
Python's leftmost, non-overlapping `re.sub` semantics.  Python dictionaries
with possibly-missing keys are modelled with `Option` fields; a `KeyError`
is modelled by returning `none` from the merging function.
-/

namespace Asr

/-- Whitespace as matched by Python's `\s` and stripped by `str.strip()`
(the ASCII whitespace characters together with the common Unicode
whitespace characters). -/
def isPySpace (c : Char) : Bool :=
  decide (c ∈ [' ', '\t', '\n', '\r', '\x0b', '\x0c',
    (Char.ofNat 0x85), (Char.ofNat 0xa0), (Char.ofNat 0x1680),
    (Char.ofNat 0x2000), (Char.ofNat 0x2001), (Char.ofNat 0x2002),
    (Char.ofNat 0x2003), (Char.ofNat 0x2004), (Char.ofNat 0x2005),
    (Char.ofNat 0x2006), (Char.ofNat 0x2007), (Char.ofNat 0x2008),
    (Char.ofNat 0x2009), (Char.ofNat 0x200a), (Char.ofNat 0x2028),
    (Char.ofNat 0x2029), (Char.ofNat 0x202f), (Char.ofNat 0x205f),
    (Char.ofNat 0x3000)])

/-- Python `text.strip()`: drop whitespace from both ends. -/
def stripL (l : List Char) : List Char :=
  ((l.dropWhile isPySpace).reverse.dropWhile isPySpace).reverse

/-- One step of Python's `re.sub` scan.  The matcher `m` receives the
current suffix; `m s = some (k, r)` means the pattern matches a prefix of
`s` of length `k + 1`, to be replaced by `r`.  The scan tries to match at
every position from the left; on a match it emits the replacement and
resumes after the matched text.  The `fuel` argument only serves to make
the recursion structural; `fuel ≥ length` makes it irrelevant. -/
def substAux (m : List Char → Option (Nat × List Char)) :
    Nat → List Char → List Char
  | _, [] => []
  | 0, l => l
  | fuel+1, c :: rest =>
    match m (c :: rest) with
    | some kr => kr.2 ++ substAux m fuel (rest.drop kr.1)
    | none => c :: substAux m fuel rest

/-- Model of `re.sub(pattern, repl, text)` for a pattern that cannot match the empty
string, driven by the matcher `m`. -/
def subst (m : List Char → Option (Nat × List Char)) (l : List Char) :
    List Char :=
  substAux m l.length l

/-! ## Character classes of the source -/

/-- The filler-word set `FILLER_WORDS` of the source, as a list. -/
def fillerL : List Char := ['呃', '嗯', '啊', '哎', '额', '噢', '哦', '呀', '诶', '唉']

/-- The comma class `[，、,]` used by `clean_filler_words`. -/
def isComma3 (c : Char) : Bool := decide (c ∈ ['，', '、', ','])

/-- The separator class `[，、]` of the final punctuation cleanup. -/
def isCnComma (c : Char) : Bool := decide (c ∈ ['，', '、'])

/-- The CJK block `[一-龥]` used by the repetition rules and the
percent-body class. -/
def isCJKb (c : Char) : Bool := decide (0x4e00 ≤ c.toNat ∧ c.toNat ≤ 0x9fa5)

/-- The `cn_nums` dictionary of `apply_itn`. -/
def cnNum (c : Char) : Option Char :=
  if c = '零' then some '0' else if c = '一' then some '1'
  else if c = '二' then some '2' else if c = '三' then some '3'
  else if c = '四' then some '4' else if c = '五' then some '5'
  else if c = '六' then some '6' else if c = '七' then some '7'
  else if c = '八' then some '8' else if c = '九' then some '9'
  else if c = '两' then some '2' else if c = '〇' then some '0'
  else none

/-- Numeric value of a `cn_nums` digit (`int(cn_nums[c])`). -/
def cnVal (c : Char) : Option Nat := (cnNum c).map (fun d => d.toNat - 48)

/-- The year class `[零一二三四五六七八九〇]`. -/
def yearClassL : List Char := ['零', '一', '二', '三', '四', '五', '六', '七', '八', '九', '〇']

def yearB (c : Char) : Bool := decide (c ∈ yearClassL)

/-- The decimal-rule integer-part class `[一二三四五六七八九十百千两]`. -/
def intClassL : List Char := ['一', '二', '三', '四', '五', '六', '七', '八', '九', '十', '百', '千', '两']

def intClassB (c : Char) : Bool := decide (c ∈ intClassL)

/-- The fractional class of `src/asr_service/postprocess.py`: the raw
string `r'[一二三四五六七八九零〇\\d]'` escapes the backslash, so the class
holds the CJK numerals, a literal backslash and a literal `d`. -/
def fracClassA (c : Char) : Bool :=
  decide (c ∈ ['一', '二', '三', '四', '五', '六', '七', '八', '九', '零', '〇', '\\', 'd'])

/-- The fractional class of `src/funasr/utils.py`:
`[一二三四五六七八九零〇0-9]`. -/
def fracClassF (c : Char) : Bool :=
  decide (c ∈ ['一', '二', '三', '四', '五', '六', '七', '八', '九', '零', '〇'])
    || decide (48 ≤ c.toNat ∧ c.toNat ≤ 57)

/-- The unit-rule number class `[一二三四五六七八九十百千两零〇]`. -/
def unitNumL : List Char :=
  ['一', '二', '三', '四', '五', '六', '七', '八', '九', '十', '百', '千', '两', '零', '〇']

def unitNumB (c : Char) : Bool := decide (c ∈ unitNumL)

/-- The unit alternation `(亿|万|家|个|人)`. -/
def isUnitChar (c : Char) : Bool := decide (c ∈ ['亿', '万', '家', '个', '人'])

/-- The percent-body class `[一-龥\d\.]`. -/
def isPctBody (c : Char) : Bool := isCJKb c || c.isDigit || decide (c = '.')

/-! ## Decimal rendering of a natural number (`f'{int_num}'`) -/

def digitChar (n : Nat) : Char := Char.ofNat (48 + n % 10)

def natReprAux : Nat → Nat → List Char
  | 0, _ => []
  | f+1, n => if n < 10 then [digitChar n] else natReprAux f (n / 10) ++ [digitChar (n % 10)]

/-- Decimal digits of `n`, as produced by Python's `f'{n}'` for `n ≥ 0`. -/
def natRepr (n : Nat) : List Char := natReprAux (n + 1) n

/-! ## `clean_filler_words` -/

/-- The anchored substitution `re.sub(rf'^{f}[，、,]?\s*', '', text)`:
with no `MULTILINE` flag, `^` only matches at the start, so at most one
replacement happens. -/
def rule1App (f : Char) (l : List Char) : List Char :=
  match l with
  | [] => []
  | c :: rest =>
    if c = f then
      (match rest with
       | p :: r2 => if isComma3 p then r2.dropWhile isPySpace else rest.dropWhile isPySpace
       | [] => [])
    else l

/-- Matcher for `rf'[，、,]\s*{f}[，、,]'` (replacement `，`). -/
def mR2 (f : Char) : List Char → Option (Nat × List Char)
  | [] => none
  | c :: rest =>
    if isComma3 c then
      match rest.drop (rest.takeWhile isPySpace).length with
      | d :: e :: _ =>
        if d = f ∧ isComma3 e then
          some ((rest.takeWhile isPySpace).length + 2, ['，'])
        else none
      | _ => none
    else none

/-- Length of the run of copies of `c` at the head of `l`. -/
def runLen (c : Char) (l : List Char) : Nat := (l.takeWhile (fun x => x = c)).length

/-- Matcher for `rf'{f}{{2,}}'` (replacement empty). -/
def mR3 (f : Char) : List Char → Option (Nat × List Char)
  | [] => none
  | c :: rest =>
    if c = f ∧ 1 ≤ runLen f rest then some (runLen f rest, []) else none

/-- The per-filler step of the first loop of `clean_filler_words`: the
anchored rule followed by the sandwiched-filler rule. -/
def stepA (t : List Char) (f : Char) : List Char := subst (mR2 f) (rule1App f t)

/-- The per-filler step of the second loop: the run-of-fillers rule. -/
def stepB (t : List Char) (f : Char) : List Char := subst (mR3 f) t

/-- The body of `clean_filler_words` before the final `strip`, for a given
iteration order `ord` of the filler set. -/
def cleanBody (ord : List Char) (l : List Char) : List Char :=
  ord.foldl stepB (ord.foldl stepA l)

/-- The function `clean_filler_words`, parameterised by the iteration order of the
Python set `FILLER_WORDS` (which is unspecified). -/
def cleanFiller (ord : List Char) (l : List Char) : List Char :=
  stripL (cleanBody ord l)

/-! ## `merge_repetitions` -/

/-- Matcher for `r'([一-龥])\1{2,}'` (replacement the group). -/
def mPass1 : List Char → Option (Nat × List Char)
  | [] => none
  | c :: rest =>
    if isCJKb c ∧ 2 ≤ runLen c rest then some (runLen c rest, [c]) else none

/-- Number of copies of the pair `a b` at the head of `l`. -/
def pairReps (a b : Char) : List Char → Nat
  | x :: y :: r => if x = a ∧ y = b then pairReps a b r + 1 else 0
  | _ => 0

/-- Matcher for `r'([一-龥]{1,2})\1{2,}'`: the greedy group tries
two characters first, then backtracks to one. -/
def mPass2 : List Char → Option (Nat × List Char)
  | [] => none
  | a :: rest =>
    if isCJKb a then
      match rest with
      | b :: rest2 =>
        if isCJKb b ∧ 2 ≤ pairReps a b rest2 then
          some (1 + 2 * pairReps a b rest2, [a, b])
        else if 2 ≤ runLen a rest then some (runLen a rest, [a]) else none
      | [] => none
    else none

/-- The function `merge_repetitions`. -/
def mergeReps (l : List Char) : List Char := subst mPass2 (subst mPass1 l)

/-! ## `apply_itn` -/

/-- The per-character step of `percent_replace`. -/
def pstep (acc : List Char) (c : Char) : List Char :=
  match cnNum c with
  | some d => acc ++ [d]
  | none =>
    if c = '十' then
      (if acc = [] then (['1'] ++ ['0']) else if acc.length = 1 then acc ++ ['0'] else acc)
    else if c = '点' then acc ++ ['.']
    else acc ++ [c]

/-- The conversion `percent_replace` applied to the matched body. -/
def pConv (body : List Char) : List Char := body.foldl pstep []

/-- Matcher for `r'百分之([一-龥\d\.]+)'`. -/
def mPercent : List Char → Option (Nat × List Char)
  | a :: b :: c :: r =>
    if a = '百' ∧ b = '分' ∧ c = '之' ∧ (r.takeWhile isPctBody).length ≠ 0 then
      some (2 + (r.takeWhile isPctBody).length, pConv (r.takeWhile isPctBody) ++ ['%'])
    else none
  | _ => none

/-- Matcher for `r'([零一二三四五六七八九〇]{4})年'`. -/
def mYear : List Char → Option (Nat × List Char)
  | c1 :: c2 :: c3 :: c4 :: c5 :: _ =>
    if yearB c1 ∧ yearB c2 ∧ yearB c3 ∧ yearB c4 ∧ c5 = '年' then
      some (4, (List.filterMap cnNum [c1, c2, c3, c4]) ++ ['年'])
    else none
  | _ => none

/-- The positional integer evaluation of `decimal_replace` (with the `千`
place).  State: `(int_num, temp)`. -/
def decStep (s : Nat × Nat) (c : Char) : Nat × Nat :=
  match cnVal c with
  | some d => (s.1, d)
  | none =>
    if c = '十' then (s.1 + (if s.2 = 0 then 1 else s.2) * 10, 0)
    else if c = '百' then (s.1 + s.2 * 100, 0)
    else if c = '千' then (s.1 + s.2 * 1000, 0)
    else s

/-- The integer-part value of `decimal_replace`: `int_num + temp` at the end. -/
def evalDec (l : List Char) : Nat :=
  (l.foldl decStep (0, 0)).1 + (l.foldl decStep (0, 0)).2

/-- The conversion `decimal_replace` applied to the two captured groups. -/
def decConv (ip fp : List Char) : List Char :=
  natRepr (evalDec ip) ++ '.' :: List.filterMap cnNum fp

/-- Matcher for the decimal rule, parameterised by the fractional class
(which differs between the two modules). -/
def mDec (frac : Char → Bool) (l : List Char) : Option (Nat × List Char) :=
  match l.drop (l.takeWhile intClassB).length with
  | c :: r =>
    if (l.takeWhile intClassB).length ≠ 0 ∧ c = '点' ∧ (r.takeWhile frac).length ≠ 0 then
      some ((l.takeWhile intClassB).length + (r.takeWhile frac).length,
        decConv (l.takeWhile intClassB) (r.takeWhile frac))
    else none
  | [] => none

/-- The positional evaluation of `unit_replace` (no `千` branch: the code
only handles `十` and `百`; `千` falls through and is ignored). -/
def unitStep (s : Nat × Nat) (c : Char) : Nat × Nat :=
  match cnVal c with
  | some d => (s.1, d)
  | none =>
    if c = '十' then (s.1 + (if s.2 = 0 then 1 else s.2) * 10, 0)
    else if c = '百' then (s.1 + s.2 * 100, 0)
    else s

def evalUnit (l : List Char) : Nat :=
  (l.foldl unitStep (0, 0)).1 + (l.foldl unitStep (0, 0)).2

/-- Matcher for `r'([一二三四五六七八九十百千两零〇]+)(亿|万|家|个|人)'`. -/
def mUnit (l : List Char) : Option (Nat × List Char) :=
  match l.drop (l.takeWhile unitNumB).length with
  | u :: _ =>
    if (l.takeWhile unitNumB).length ≠ 0 ∧ isUnitChar u then
      some ((l.takeWhile unitNumB).length, natRepr (evalUnit (l.takeWhile unitNumB)) ++ [u])
    else none
  | [] => none

/-- The function `apply_itn` of `src/asr_service/postprocess.py`. -/
def applyItnA (l : List Char) : List Char :=
  subst mUnit (subst (mDec fracClassA) (subst mYear (subst mPercent l)))

/-- The function `apply_itn` of `src/funasr/utils.py` (identical except for the
fractional class of the decimal rule). -/
def applyItnF (l : List Char) : List Char :=
  subst mUnit (subst (mDec fracClassF) (subst mYear (subst mPercent l)))

/-! ## Final punctuation cleanup and the pipeline -/

/-- Matcher for `r'[，、]{2,}'` (replacement `，`). -/
def mPunct : List Char → Option (Nat × List Char)
  | [] => none
  | c :: rest =>
    if isCnComma c ∧ 1 ≤ (rest.takeWhile isCnComma).length then
      some ((rest.takeWhile isCnComma).length, ['，'])
    else none

/-- Model of `re.sub(r'，$', '。', text)`: `$` matches at the end of the string or
just before a final newline. -/
def subTrail (l : List Char) : List Char :=
  match l.reverse with
  | c :: r =>
    if c = '，' then r.reverse ++ ['。']
    else if c = '\n' then
      match r with
      | c2 :: r2 => if c2 = '，' then r2.reverse ++ ['。', '\n'] else l
      | [] => l
    else l
  | [] => l

/-- The final punctuation cleanup and strip shared by both `postprocess`
functions. -/
def tidy (l : List Char) : List Char := stripL (subTrail (subst mPunct l))

/-- The function `postprocess` of `src/asr_service/postprocess.py` (on `List Char`),
parameterised by the filler-set iteration order. -/
def postprocessA (ord : List Char) (l : List Char) (flag : Bool) : List Char :=
  tidy ((if flag then applyItnA else id) (mergeReps (cleanFiller ord l)))

/-- The function `postprocess` of `src/funasr/utils.py` (on `List Char`). -/
def postprocessF (ord : List Char) (l : List Char) (flag : Bool) : List Char :=
  tidy ((if flag then applyItnF else id) (mergeReps (cleanFiller ord l)))

/-- String-level wrapper of the `asr_service` pipeline. -/
def postprocessAStr (ord : List Char) (s : String) (flag : Bool) : String :=
  String.mk (postprocessA ord s.data flag)

/-- String-level wrapper of the `funasr` pipeline. -/
def postprocessFStr (ord : List Char) (s : String) (flag : Bool) : String :=
  String.mk (postprocessF ord s.data flag)

/-- String-level wrapper of `apply_itn` (the ITN `normalize`). -/
def normalizeStr (s : String) : String := String.mk (applyItnA s.data)

/-- String-level wrapper of `clean_filler_words`. -/
def cleanFillerStr (ord : List Char) (s : String) : String :=
  String.mk (cleanFiller ord s.data)

/-! ## `merge_speaker_segments` -/

/-- An utterance segment: a Python dictionary whose four keys may be
missing (`none` models both a missing key and, for `speaker`, an explicit
`None`, which `dict.get` does not distinguish). -/
structure Segment where
  startT : Option ℚ
  endT : Option ℚ
  speaker : Option String
  text : Option String
deriving DecidableEq, Repr

/-- The walk of `merge_speaker_segments` with accumulator `cur`.  The
merging branch evaluates `current['end']` (the default argument of
`seg.get('end', current['end'])`), which raises `KeyError` when the
accumulator has no `end` key; this is modelled by `none`. -/
def mergeWalk (cur : Segment) : List Segment → Option (List Segment)
  | [] => some [cur]
  | s :: rest =>
    if s.speaker = cur.speaker ∧ s.startT.getD 0 - cur.endT.getD 0 < 2 then
      match cur.endT with
      | none => none
      | some e =>
        mergeWalk { cur with endT := some (s.endT.getD e),
                             text := some (cur.text.getD "" ++ s.text.getD "") } rest
    else
      (mergeWalk s rest).map (cur :: ·)

/-- The function `merge_speaker_segments`. -/
def mergeSegments : List Segment → Option (List Segment)
  | [] => some []
  | s :: rest => mergeWalk s rest

/-- Defaulting of missing fields to `(0, 0, null, "")` — the behaviour the
spec asserts for malformed segments. -/
def fillDefaults (s : Segment) : Segment :=
  { startT := some (s.startT.getD 0), endT := some (s.endT.getD 0),
    speaker := s.speaker, text := some (s.text.getD "") }

/-- In-order concatenation of the text fields. -/
def textConcat (l : List Segment) : String :=
  (l.map (fun s => s.text.getD "")).foldr (· ++ ·) ""

/-! ## Generic lemmas about the substitution scan -/

theorem substAux_congr (m : List Char → Option (Nat × List Char)) :
    ∀ (f g : Nat) (l : List Char), l.length ≤ f → l.length ≤ g →
      substAux m f l = substAux m g l := by
  intro f
  induction f with
  | zero =>
    intro g l hf _
    have : l = [] := List.eq_nil_of_length_eq_zero (Nat.le_zero.mp hf)
    subst this
    cases g <;> rfl
  | succ f ih =>
    intro g l hf hg
    match l with
    | [] => cases g <;> rfl
    | c :: rest =>
      match g with
      | 0 => exact absurd hg (by simp)
      | g + 1 =>
        simp only [substAux]
        cases h : m (c :: rest) with
        | none =>
          exact congrArg (c :: ·) (ih g rest (by simp at hf; omega) (by simp at hg; omega))
        | some kr =>
          refine congrArg (kr.2 ++ ·) (ih g (rest.drop kr.1) ?_ ?_) <;>
            simp only [List.length_drop] <;> simp at hf hg <;> omega

theorem subst_nil (m : List Char → Option (Nat × List Char)) : subst m [] = [] := rfl

theorem subst_cons_none {m : List Char → Option (Nat × List Char)} {c : Char}
    {rest : List Char} (h : m (c :: rest) = none) :
    subst m (c :: rest) = c :: subst m rest := by
  simp only [subst, List.length_cons, substAux, h]

theorem subst_cons_some {m : List Char → Option (Nat × List Char)} {c : Char}
    {rest : List Char} {k : Nat} {r : List Char} (h : m (c :: rest) = some (k, r)) :
    subst m (c :: rest) = r ++ subst m (rest.drop k) := by
  simp only [subst, List.length_cons, substAux, h]
  exact congrArg (r ++ ·)
    (substAux_congr m rest.length (rest.drop k).length (rest.drop k)
      (by simp only [List.length_drop]; omega) (le_refl _))

/-- A substitution whose matcher fails on every suffix is the identity. -/
theorem subst_id {m : List Char → Option (Nat × List Char)} :
    ∀ {l : List Char}, (∀ s, s <:+ l → m s = none) → subst m l = l := by
  intro l
  induction l with
  | nil => intro _; rfl
  | cons c rest ih =>
    intro H
    rw [subst_cons_none (H _ (List.suffix_refl _)),
      ih (fun s hs => H s (hs.trans (List.suffix_cons c rest)))]

/-- Matchers that agree on all suffixes give equal substitutions. -/
theorem subst_congrm {m1 m2 : List Char → Option (Nat × List Char)} :
    ∀ (n : Nat) (l : List Char), l.length ≤ n →
      (∀ s, s <:+ l → m1 s = m2 s) → subst m1 l = subst m2 l := by
  intro n
  induction n with
  | zero =>
    intro l hl _
    have : l = [] := List.eq_nil_of_length_eq_zero (Nat.le_zero.mp hl)
    subst this; rfl
  | succ n ih =>
    intro l hl H
    match l with
    | [] => rfl
    | c :: rest =>
      have h0 := H (c :: rest) (List.suffix_refl _)
      cases h : m1 (c :: rest) with
      | none =>
        rw [subst_cons_none h, subst_cons_none (h0 ▸ h),
          ih rest (by simp at hl; omega)
            (fun s hs => H s (hs.trans (List.suffix_cons c rest)))]
      | some kr =>
        obtain ⟨k, r⟩ := kr
        rw [subst_cons_some h, subst_cons_some (h0 ▸ h)]
        refine congrArg (r ++ ·) (ih (rest.drop k) ?_ ?_)
        · simp only [List.length_drop]; simp at hl; omega
        · intro s hs
          exact H s ((hs.trans (List.drop_suffix k rest)).trans (List.suffix_cons c rest))

/-- Characters of the output of a substitution come from the input or from
the replacements. -/
theorem subst_subset {m : List Char → Option (Nat × List Char)} {extra : List Char}
    (Hrep : ∀ s kr, m s = some kr → ∀ c ∈ kr.2, c ∈ extra) :
    ∀ (n : Nat) (l : List Char), l.length ≤ n →
      ∀ c ∈ subst m l, c ∈ l ∨ c ∈ extra := by
  intro n
  induction n with
  | zero =>
    intro l hl c hc
    have : l = [] := List.eq_nil_of_length_eq_zero (Nat.le_zero.mp hl)
    subst this; rw [subst_nil] at hc; simp at hc
  | succ n ih =>
    intro l hl c hc
    match l with
    | [] => rw [subst_nil] at hc; simp at hc
    | d :: rest =>
      cases h : m (d :: rest) with
      | none =>
        rw [subst_cons_none h] at hc
        rcases List.mem_cons.mp hc with rfl | hc
        · exact Or.inl (List.mem_cons_self _ _)
        · rcases ih rest (by simp at hl; omega) c hc with h' | h'
          · exact Or.inl (List.mem_cons_of_mem _ h')
          · exact Or.inr h'
      | some kr =>
        obtain ⟨k, r⟩ := kr
        rw [subst_cons_some h] at hc
        rcases List.mem_append.mp hc with hc | hc
        · exact Or.inr (Hrep _ _ h c hc)
        · rcases ih (rest.drop k) (by simp [List.length_drop] at *; omega) c hc with h' | h'
          · exact Or.inl (List.mem_cons_of_mem _ (List.mem_of_mem_drop h'))
          · exact Or.inr h'

/-! ## Character-class facts -/

def digitsL : List Char := ['0', '1', '2', '3', '4', '5', '6', '7', '8', '9']

/-- The characters that can trigger any of the four ITN rewrite rules. -/
def numeralL : List Char :=
  ['零', '一', '二', '三', '四', '五', '六', '七', '八', '九', '〇', '两', '十', '百', '千']

/-- The CJK numerals of the decimal rule's fractional class. -/
def fracNumL : List Char := ['一', '二', '三', '四', '五', '六', '七', '八', '九', '零', '〇']

theorem yearClassL_facts {c : Char} (h : c ∈ yearClassL) :
    yearB c = true ∧ (cnNum c).isSome = true ∧ c ≠ '百' ∧ c ≠ '点' ∧ c ≠ '年' ∧
      isUnitChar c = false ∧ c ∈ numeralL := by
  simp only [yearClassL, List.mem_cons, List.not_mem_nil, or_false] at h
  rcases h with rfl | rfl | rfl | rfl | rfl | rfl | rfl | rfl | rfl | rfl | rfl <;> decide

theorem intClassL_facts {c : Char} (h : c ∈ intClassL) :
    intClassB c = true ∧ c ≠ '点' ∧ c ≠ '分' ∧ c ≠ '年' ∧ isUnitChar c = false := by
  simp only [intClassL, List.mem_cons, List.not_mem_nil, or_false] at h
  rcases h with rfl | rfl | rfl | rfl | rfl | rfl | rfl | rfl | rfl | rfl | rfl | rfl | rfl <;>
    decide

theorem fracNumL_facts {c : Char} (h : c ∈ fracNumL) :
    fracClassA c = true ∧ (cnNum c).isSome = true ∧ c ≠ '点' ∧ c ≠ '分' ∧ c ≠ '年' ∧
      isUnitChar c = false := by
  simp only [fracNumL, List.mem_cons, List.not_mem_nil, or_false] at h
  rcases h with rfl | rfl | rfl | rfl | rfl | rfl | rfl | rfl | rfl | rfl | rfl <;> decide

set_option maxHeartbeats 1000000 in
theorem cnNum_digit {c d : Char} (h : cnNum c = some d) : d ∈ digitsL := by
  unfold cnNum at h
  split_ifs at h <;> first
  | exact Option.noConfusion h
  | (injection h with h; subst h; decide)

theorem digitsL_facts {d : Char} (h : d ∈ digitsL) :
    d ≠ '点' ∧ d ≠ '分' ∧ d ≠ '年' ∧ isUnitChar d = false ∧ intClassB d = false ∧
      unitNumB d = false ∧ isCJKb d = false := by
  simp only [digitsL, List.mem_cons, List.not_mem_nil, or_false] at h
  rcases h with rfl | rfl | rfl | rfl | rfl | rfl | rfl | rfl | rfl | rfl <;> decide

theorem digitChar_mem (n : Nat) : digitChar n ∈ digitsL := by
  unfold digitChar digitsL
  have h : n % 10 < 10 := Nat.mod_lt _ (by norm_num)
  revert h
  generalize n % 10 = m
  intro h
  interval_cases m <;> decide

theorem natReprAux_digits : ∀ (fuel n : Nat), ∀ c ∈ natReprAux fuel n, c ∈ digitsL := by
  intro fuel
  induction fuel with
  | zero => intro n c hc; simp [natReprAux] at hc
  | succ fuel ih =>
    intro n c hc
    unfold natReprAux at hc
    split at hc
    · simp at hc
      exact hc ▸ digitChar_mem n
    · rcases List.mem_append.mp hc with h | h
      · exact ih (n / 10) c h
      · simp at h
        exact h ▸ digitChar_mem (n % 10)

theorem natRepr_digits {n : Nat} : ∀ c ∈ natRepr n, c ∈ digitsL :=
  natReprAux_digits (n + 1) n

/-! ## Matcher trigger lemmas -/

theorem matcher_none_of {m : List Char → Option (Nat × List Char)} {s : List Char}
    (h : ∀ kr, m s = some kr → False) : m s = none := by
  cases hm : m s with
  | none => rfl
  | some kr => exact absurd hm (fun he => h kr he)

theorem takeWhile_len_pos_mem {p : Char → Bool} {l : List Char}
    (h : (l.takeWhile p).length ≠ 0) : ∃ c ∈ l, p c = true := by
  match l with
  | [] => simp at h
  | c :: r =>
    rw [List.takeWhile_cons] at h
    by_cases hp : p c
    · exact ⟨c, List.mem_cons_self _ _, hp⟩
    · simp [hp] at h

theorem mPercent_mem_bai {s : List Char} {kr : Nat × List Char}
    (h : mPercent s = some kr) : '百' ∈ s := by
  match s with
  | [] => simp [mPercent] at h
  | [a] => simp [mPercent] at h
  | [a, b] => simp [mPercent] at h
  | a :: b :: c :: r =>
    simp only [mPercent] at h
    split_ifs at h with hc
    · obtain ⟨rfl, -, -, -⟩ := hc
      exact List.mem_cons_self _ _

theorem mPercent_mem_fen {s : List Char} {kr : Nat × List Char}
    (h : mPercent s = some kr) : '分' ∈ s := by
  match s with
  | [] => simp [mPercent] at h
  | [a] => simp [mPercent] at h
  | [a, b] => simp [mPercent] at h
  | a :: b :: c :: r =>
    simp only [mPercent] at h
    split_ifs at h with hc
    · obtain ⟨-, rfl, -, -⟩ := hc
      exact List.mem_cons_of_mem _ (List.mem_cons_self _ _)

theorem mYear_mem_nian {s : List Char} {kr : Nat × List Char}
    (h : mYear s = some kr) : '年' ∈ s := by
  match s with
  | [] => simp [mYear] at h
  | [a] => simp [mYear] at h
  | [a, b] => simp [mYear] at h
  | [a, b, c] => simp [mYear] at h
  | [a, b, c, d] => simp [mYear] at h
  | a :: b :: c :: d :: e :: r =>
    simp only [mYear] at h
    split_ifs at h with hc
    · obtain ⟨-, -, -, -, rfl⟩ := hc
      exact List.mem_cons_of_mem _ (List.mem_cons_of_mem _ (List.mem_cons_of_mem _
        (List.mem_cons_of_mem _ (List.mem_cons_self _ _))))

theorem mYear_mem_year {s : List Char} {kr : Nat × List Char}
    (h : mYear s = some kr) : ∃ c ∈ s, c ∈ yearClassL := by
  match s with
  | [] => simp [mYear] at h
  | [a] => simp [mYear] at h
  | [a, b] => simp [mYear] at h
  | [a, b, c] => simp [mYear] at h
  | [a, b, c, d] => simp [mYear] at h
  | a :: b :: c :: d :: e :: r =>
    simp only [mYear] at h
    split_ifs at h with hc
    · exact ⟨a, List.mem_cons_self _ _, of_decide_eq_true hc.1⟩

theorem mYear_none_short {s : List Char} (hs : s.length ≤ 4) : mYear s = none := by
  match s with
  | [] => rfl
  | [a] => rfl
  | [a, b] => rfl
  | [a, b, c] => rfl
  | [a, b, c, d] => rfl
  | a :: b :: c :: d :: e :: r => simp at hs

theorem mDec_mem_dot {f : Char → Bool} {s : List Char} {kr : Nat × List Char}
    (h : mDec f s = some kr) : '点' ∈ s := by
  unfold mDec at h
  split at h
  case _ c r heq =>
    split_ifs at h with hc
    · obtain ⟨-, rfl, -⟩ := hc
      exact List.mem_of_mem_drop (heq ▸ List.mem_cons_self _ _)
  case _ => exact Option.noConfusion h

theorem mDec_mem_int {f : Char → Bool} {s : List Char} {kr : Nat × List Char}
    (h : mDec f s = some kr) : ∃ c ∈ s, intClassB c = true := by
  unfold mDec at h
  split at h
  case _ c r heq =>
    split_ifs at h with hc
    · exact takeWhile_len_pos_mem hc.1
  case _ => exact Option.noConfusion h

theorem mUnit_mem_unit {s : List Char} {kr : Nat × List Char}
    (h : mUnit s = some kr) : ∃ u ∈ s, isUnitChar u = true := by
  unfold mUnit at h
  split at h
  case _ u r heq =>
    split_ifs at h with hc
    · exact ⟨u, List.mem_of_mem_drop (heq ▸ List.mem_cons_self _ _), hc.2⟩
  case _ => exact Option.noConfusion h

theorem mUnit_mem_num {s : List Char} {kr : Nat × List Char}
    (h : mUnit s = some kr) : ∃ c ∈ s, unitNumB c = true := by
  unfold mUnit at h
  split at h
  case _ u r heq =>
    split_ifs at h with hc
    · exact takeWhile_len_pos_mem hc.1
  case _ => exact Option.noConfusion h

/-! ## Identity of the ITN substitutions on texts without their triggers -/

theorem subst_percent_id {l : List Char} (h : '百' ∉ l) : subst mPercent l = l :=
  subst_id (fun s hs => matcher_none_of (fun kr hm => h (hs.subset (mPercent_mem_bai hm))))

theorem subst_percent_id_fen {l : List Char} (h : '分' ∉ l) : subst mPercent l = l :=
  subst_id (fun s hs => matcher_none_of (fun kr hm => h (hs.subset (mPercent_mem_fen hm))))

theorem subst_year_id {l : List Char} (h : '年' ∉ l) : subst mYear l = l :=
  subst_id (fun s hs => matcher_none_of (fun kr hm => h (hs.subset (mYear_mem_nian hm))))

theorem subst_dec_id {f : Char → Bool} {l : List Char} (h : '点' ∉ l) :
    subst (mDec f) l = l :=
  subst_id (fun s hs => matcher_none_of (fun kr hm => h (hs.subset (mDec_mem_dot hm))))

theorem subst_unit_id {l : List Char} (h : ∀ u ∈ l, isUnitChar u = false) :
    subst mUnit l = l :=
  subst_id (fun s hs => matcher_none_of (fun kr hm => by
    obtain ⟨u, hu, hiu⟩ := mUnit_mem_unit hm
    rw [h u (hs.subset hu)] at hiu
    exact Bool.noConfusion hiu))

/-- A matcher that fires at the head and consumes the whole string yields
just its replacement. -/
theorem subst_of_all {m : List Char → Option (Nat × List Char)} {c : Char}
    {rest r : List Char} {k : Nat} (h : m (c :: rest) = some (k, r))
    (hk : rest.length ≤ k) : subst m (c :: rest) = r := by
  rw [subst_cons_some h, List.drop_eq_nil_of_le hk, subst_nil, List.append_nil]

/-! ## Claim theorems: ITN (C1, C8, C9) -/

/-- Characters of the year rule's replacement. -/
theorem year_out_chars {l : List Char} {c : Char}
    (hc : c ∈ List.filterMap cnNum l ++ ['年']) : c ∈ digitsL ∨ c = '年' := by
  rcases List.mem_append.mp hc with h | h
  · obtain ⟨a, -, ha⟩ := List.mem_filterMap.mp h
    exact Or.inl (cnNum_digit ha)
  · simp at h
    exact Or.inr h

/-- C1 (counterexample): a 5-character numeral run before `年` is not left
untouched — the year regex matches its last four characters (leftmost
match at offset 1), so `一二零二五年` becomes `一2025年`. -/
theorem itn_year_counterexample :
    normalizeStr "一二零二五年" = "一2025年" ∧ ("一2025年" : String) ≠ "一二零二五年" :=
  ⟨by decide, by decide⟩

/-- C1 (amended): a standalone run of exactly 4 year-class numerals before
`年` is rewritten to the mapped digits followed by `年`; a 3-character run
is left untouched; in a 5-character run the last four characters are
rewritten, leaving the first numeral in place. -/
theorem itn_year_amended :
    (∀ c1 c2 c3 c4, c1 ∈ yearClassL → c2 ∈ yearClassL → c3 ∈ yearClassL → c4 ∈ yearClassL →
      applyItnA [c1, c2, c3, c4, '年'] = List.filterMap cnNum [c1, c2, c3, c4] ++ ['年'])
    ∧ (∀ c1 c2 c3, c1 ∈ yearClassL → c2 ∈ yearClassL → c3 ∈ yearClassL →
      applyItnA [c1, c2, c3, '年'] = [c1, c2, c3, '年'])
    ∧ (∀ c1 c2 c3 c4 c5, c1 ∈ yearClassL → c2 ∈ yearClassL → c3 ∈ yearClassL →
        c4 ∈ yearClassL → c5 ∈ yearClassL →
      applyItnA [c1, c2, c3, c4, c5, '年'] =
        c1 :: (List.filterMap cnNum [c2, c3, c4, c5] ++ ['年'])) := by
  refine ⟨?_, ?_, ?_⟩
  · intro c1 c2 c3 c4 h1 h2 h3 h4
    have f1 := yearClassL_facts h1
    have f2 := yearClassL_facts h2
    have f3 := yearClassL_facts h3
    have f4 := yearClassL_facts h4
    have hper : subst mPercent [c1, c2, c3, c4, '年'] = [c1, c2, c3, c4, '年'] := by
      refine subst_percent_id ?_
      intro hb
      simp only [List.mem_cons, List.not_mem_nil, or_false] at hb
      rcases hb with h | h | h | h | h
      · exact f1.2.2.1 h.symm
      · exact f2.2.2.1 h.symm
      · exact f3.2.2.1 h.symm
      · exact f4.2.2.1 h.symm
      · exact absurd h (by decide)
    have hm : mYear [c1, c2, c3, c4, '年'] =
        some (4, List.filterMap cnNum [c1, c2, c3, c4] ++ ['年']) := by
      simp only [mYear]
      rw [if_pos ⟨f1.1, f2.1, f3.1, f4.1, by trivial⟩]
    have hy : subst mYear [c1, c2, c3, c4, '年'] =
        List.filterMap cnNum [c1, c2, c3, c4] ++ ['年'] :=
      subst_of_all hm (by simp)
    have hdec : subst (mDec fracClassA) (List.filterMap cnNum [c1, c2, c3, c4] ++ ['年']) =
        List.filterMap cnNum [c1, c2, c3, c4] ++ ['年'] := by
      refine subst_dec_id ?_
      intro hd
      rcases year_out_chars hd with h | h
      · exact (digitsL_facts h).1 rfl
      · exact absurd h (by decide)
    have hunit : subst mUnit (List.filterMap cnNum [c1, c2, c3, c4] ++ ['年']) =
        List.filterMap cnNum [c1, c2, c3, c4] ++ ['年'] := by
      refine subst_unit_id ?_
      intro u hu
      rcases year_out_chars hu with h | h
      · exact (digitsL_facts h).2.2.2.1
      · exact h ▸ (by decide)
    unfold applyItnA
    rw [hper, hy, hdec, hunit]
  · intro c1 c2 c3 h1 h2 h3
    have f1 := yearClassL_facts h1
    have f2 := yearClassL_facts h2
    have f3 := yearClassL_facts h3
    have hper : subst mPercent [c1, c2, c3, '年'] = [c1, c2, c3, '年'] := by
      refine subst_percent_id ?_
      intro hb
      simp only [List.mem_cons, List.not_mem_nil, or_false] at hb
      rcases hb with h | h | h | h
      · exact f1.2.2.1 h.symm
      · exact f2.2.2.1 h.symm
      · exact f3.2.2.1 h.symm
      · exact absurd h (by decide)
    have hy : subst mYear [c1, c2, c3, '年'] = [c1, c2, c3, '年'] :=
      subst_id (fun s hs => mYear_none_short (le_trans hs.length_le (by simp)))
    have hdec : subst (mDec fracClassA) [c1, c2, c3, '年'] = [c1, c2, c3, '年'] := by
      refine subst_dec_id ?_
      intro hd
      simp only [List.mem_cons, List.not_mem_nil, or_false] at hd
      rcases hd with h | h | h | h
      · exact f1.2.2.2.1 h.symm
      · exact f2.2.2.2.1 h.symm
      · exact f3.2.2.2.1 h.symm
      · exact absurd h (by decide)
    have hunit : subst mUnit [c1, c2, c3, '年'] = [c1, c2, c3, '年'] := by
      refine subst_unit_id ?_
      intro u hu
      simp only [List.mem_cons, List.not_mem_nil, or_false] at hu
      rcases hu with rfl | rfl | rfl | rfl
      · exact f1.2.2.2.2.2.1
      · exact f2.2.2.2.2.2.1
      · exact f3.2.2.2.2.2.1
      · decide
    unfold applyItnA
    rw [hper, hy, hdec, hunit]
  · intro c1 c2 c3 c4 c5 h1 h2 h3 h4 h5
    have f1 := yearClassL_facts h1
    have f2 := yearClassL_facts h2
    have f3 := yearClassL_facts h3
    have f4 := yearClassL_facts h4
    have f5 := yearClassL_facts h5
    have hper : subst mPercent [c1, c2, c3, c4, c5, '年'] = [c1, c2, c3, c4, c5, '年'] := by
      refine subst_percent_id ?_
      intro hb
      simp only [List.mem_cons, List.not_mem_nil, or_false] at hb
      rcases hb with h | h | h | h | h | h
      · exact f1.2.2.1 h.symm
      · exact f2.2.2.1 h.symm
      · exact f3.2.2.1 h.symm
      · exact f4.2.2.1 h.symm
      · exact f5.2.2.1 h.symm
      · exact absurd h (by decide)
    have hm0 : mYear [c1, c2, c3, c4, c5, '年'] = none := by
      simp only [mYear]
      rw [if_neg]
      intro hcond
      exact f5.2.2.2.2.1 hcond.2.2.2.2
    have hm1 : mYear [c2, c3, c4, c5, '年'] =
        some (4, List.filterMap cnNum [c2, c3, c4, c5] ++ ['年']) := by
      simp only [mYear]
      rw [if_pos ⟨f2.1, f3.1, f4.1, f5.1, by trivial⟩]
    have hy : subst mYear [c1, c2, c3, c4, c5, '年'] =
        c1 :: (List.filterMap cnNum [c2, c3, c4, c5] ++ ['年']) := by
      rw [subst_cons_none hm0, subst_of_all hm1 (by simp)]
    have hchars : ∀ c ∈ c1 :: (List.filterMap cnNum [c2, c3, c4, c5] ++ ['年']),
        c = c1 ∨ c ∈ digitsL ∨ c = '年' := by
      intro c hc
      rcases List.mem_cons.mp hc with rfl | hc
      · exact Or.inl rfl
      · rcases year_out_chars hc with h | h
        · exact Or.inr (Or.inl h)
        · exact Or.inr (Or.inr h)
    have hdec : subst (mDec fracClassA) (c1 :: (List.filterMap cnNum [c2, c3, c4, c5] ++ ['年'])) =
        c1 :: (List.filterMap cnNum [c2, c3, c4, c5] ++ ['年']) := by
      refine subst_dec_id ?_
      intro hd
      rcases hchars '点' hd with h | h | h
      · exact f1.2.2.2.1 h.symm
      · exact (digitsL_facts h).1 rfl
      · exact absurd h (by decide)
    have hunit : subst mUnit (c1 :: (List.filterMap cnNum [c2, c3, c4, c5] ++ ['年'])) =
        c1 :: (List.filterMap cnNum [c2, c3, c4, c5] ++ ['年']) := by
      refine subst_unit_id ?_
      intro u hu
      rcases hchars u hu with rfl | h | rfl
      · exact f1.2.2.2.2.2.1
      · exact (digitsL_facts h).2.2.2.1
      · decide
    unfold applyItnA
    rw [hper, hy, hdec, hunit]

/-- Witness for the amended C1 at concrete year digits. -/
theorem itn_year_amended_witness :
    applyItnA ['二', '零', '二', '五', '年'] = ['2', '0', '2', '5', '年'] ∧
      applyItnA ['二', '零', '五', '年'] = ['二', '零', '五', '年'] ∧
      applyItnA ['一', '二', '零', '二', '五', '年'] = ['一', '2', '0', '2', '5', '年'] := by
  refine ⟨?_, ?_, ?_⟩
  · have h := itn_year_amended.1 '二' '零' '二' '五' (by decide) (by decide) (by decide) (by decide)
    simpa using h
  · exact itn_year_amended.2.1 '二' '零' '五' (by decide) (by decide) (by decide)
  · have h := itn_year_amended.2.2 '一' '二' '零' '二' '五' (by decide) (by decide) (by decide)
      (by decide) (by decide)
    simpa using h

/-- C8: the percent rule.  Each `cn_nums`-mapped numeral in the body
becomes its digit, `点` becomes a literal decimal point, `十` on an empty
accumulator produces `10`, the whole matched body is converted by this
per-character fold, and `normalize("百分之十") = "10%"`. -/
theorem itn_percent_rule :
    (∀ acc c d, cnNum c = some d → pstep acc c = acc ++ [d])
    ∧ (∀ acc, pstep acc '点' = acc ++ ['.'])
    ∧ pstep [] '十' = ['1', '0']
    ∧ (∀ body, body ≠ [] → (∀ c ∈ body, isPctBody c = true) →
        subst mPercent ('百' :: '分' :: '之' :: body) = pConv body ++ ['%'])
    ∧ normalizeStr "百分之十" = "10%" := by
  refine ⟨?_, ?_, rfl, ?_, by decide⟩
  · intro acc c d h
    simp [pstep, h]
  · intro acc
    rfl
  · intro body hne hall
    have hm : mPercent ('百' :: '分' :: '之' :: body) =
        some (2 + body.length, pConv body ++ ['%']) := by
      simp only [mPercent, List.takeWhile_eq_self_iff.mpr hall]
      rw [if_pos ⟨by trivial, by trivial, by trivial, fun h => hne (List.eq_nil_of_length_eq_zero h)⟩]
    exact subst_of_all hm (by simp only [List.length_cons]; omega)

/-- Witness for C8 at concrete inputs. -/
theorem itn_percent_rule_witness :
    pstep ['7'] '五' = ['7', '5'] ∧ pstep ['7'] '点' = ['7', '.'] ∧
      subst mPercent ('百' :: '分' :: '之' :: ['十']) = pConv ['十'] ++ ['%'] :=
  ⟨itn_percent_rule.1 ['7'] '五' '5' rfl, itn_percent_rule.2.1 ['7'],
    itn_percent_rule.2.2.2.1 ['十'] (by decide) (by decide)⟩

/-- C9 (counterexample): a fractional part consisting of an ASCII digit
does not match the decimal rule of `src/asr_service/postprocess.py` (its
raw-string `\\d` denotes a literal backslash and `d`, not a digit class),
so `三点5` is left untouched instead of becoming `3.5`. -/
theorem itn_decimal_counterexample :
    normalizeStr "三点5" = "三点5" ∧ ("三点5" : String) ≠ "3.5" :=
  ⟨by decide, by decide⟩

/-- C9 (amended): `<integer-part>点<fractional-part>` with the fractional
part consisting of CJK numerals is rewritten to `<int>.<frac>`, the
integer part evaluated positionally (`十`=10, `百`=100, `千`=1000, bare
`十` counted as 1) and each fractional numeral emitted as exactly one
digit; ASCII fractional digits do not match (the class contains a literal
backslash and `d` instead).  `normalize("三点五") = "3.5"`. -/
theorem itn_decimal_amended :
    (∀ ip fp, ip ≠ [] → fp ≠ [] → (∀ c ∈ ip, c ∈ intClassL) → (∀ c ∈ fp, c ∈ fracNumL) →
      applyItnA (ip ++ '点' :: fp) =
        natRepr (evalDec ip) ++ '.' :: List.filterMap cnNum fp)
    ∧ (∀ c d, cnVal c = some d → evalDec [c] = d)
    ∧ evalDec ['十'] = 10
    ∧ (∀ c d, cnVal c = some d → d ≠ 0 → evalDec [c, '十'] = d * 10)
    ∧ (∀ c d, cnVal c = some d → evalDec [c, '百'] = d * 100)
    ∧ (∀ c d, cnVal c = some d → evalDec [c, '千'] = d * 1000)
    ∧ normalizeStr "三点五" = "3.5" := by
  refine ⟨?_, ?_, rfl, ?_, ?_, ?_, by decide⟩
  · intro ip fp hip hfp hipm hfpm
    obtain ⟨i0, ip', rfl⟩ := List.exists_cons_of_ne_nil hip
    have hfen : '分' ∉ (i0 :: ip') ++ '点' :: fp := by
      intro hmem
      rcases List.mem_append.mp hmem with h | h
      · exact (intClassL_facts (hipm _ h)).2.2.1 rfl
      · rcases List.mem_cons.mp h with h | h
        · exact absurd h (by decide)
        · exact (fracNumL_facts (hfpm _ h)).2.2.2.1 rfl
    have hnian : '年' ∉ (i0 :: ip') ++ '点' :: fp := by
      intro hmem
      rcases List.mem_append.mp hmem with h | h
      · exact (intClassL_facts (hipm _ h)).2.2.2.1 rfl
      · rcases List.mem_cons.mp h with h | h
        · exact absurd h (by decide)
        · exact (fracNumL_facts (hfpm _ h)).2.2.2.2.1 rfl
    have h1 : List.takeWhile intClassB (i0 :: ip') = i0 :: ip' :=
      List.takeWhile_eq_self_iff.mpr (fun c hc => (intClassL_facts (hipm c hc)).1)
    have htw : ((i0 :: ip') ++ '点' :: fp).takeWhile intClassB = i0 :: ip' := by
      rw [List.takeWhile_append, h1, if_pos rfl, List.takeWhile_cons]
      simp [show intClassB '点' = false by decide]
    have hdrop : ((i0 :: ip') ++ '点' :: fp).drop (i0 :: ip').length = '点' :: fp :=
      List.drop_left _ _
    have htwf : fp.takeWhile fracClassA = fp :=
      List.takeWhile_eq_self_iff.mpr (fun c hc => (fracNumL_facts (hfpm c hc)).1)
    have hm : mDec fracClassA ((i0 :: ip') ++ '点' :: fp) =
        some ((i0 :: ip').length + fp.length, decConv (i0 :: ip') fp) := by
      unfold mDec
      rw [htw, hdrop]
      dsimp only
      rw [htwf]
      rw [if_pos ⟨by simp, by trivial, fun h => hfp (List.eq_nil_of_length_eq_zero h)⟩]
    have hsub : subst (mDec fracClassA) ((i0 :: ip') ++ '点' :: fp) = decConv (i0 :: ip') fp := by
      refine subst_of_all hm ?_
      simp only [List.append_eq, List.length_append, List.length_cons]
      omega
    have hchars : ∀ u ∈ decConv (i0 :: ip') fp, isUnitChar u = false := by
      intro u hu
      unfold decConv at hu
      rcases List.mem_append.mp hu with h | h
      · exact (digitsL_facts (natRepr_digits u h)).2.2.2.1
      · rcases List.mem_cons.mp h with rfl | h
        · decide
        · obtain ⟨a, -, ha⟩ := List.mem_filterMap.mp h
          exact (digitsL_facts (cnNum_digit ha)).2.2.2.1
    unfold applyItnA
    rw [subst_percent_id_fen hfen, subst_year_id hnian, hsub, subst_unit_id hchars]
    rfl
  · intro c d h
    simp [evalDec, decStep, h]
  · intro c d h hd
    simp [evalDec, decStep, h, hd, show cnVal '十' = none from rfl]
  · intro c d h
    simp [evalDec, decStep, h, show cnVal '百' = none from rfl]
  · intro c d h
    simp [evalDec, decStep, h, show cnVal '千' = none from rfl]

/-- Witness for the amended C9: `二十五点六` → `25.6`. -/
theorem itn_decimal_amended_witness :
    applyItnA ['二', '十', '五', '点', '六'] =
      natRepr (evalDec ['二', '十', '五']) ++ '.' :: List.filterMap cnNum ['六'] ∧
      evalDec ['五'] = 5 ∧ evalDec ['五', '十'] = 5 * 10 ∧ evalDec ['五', '百'] = 5 * 100 ∧
      evalDec ['五', '千'] = 5 * 1000 :=
  ⟨itn_decimal_amended.1 ['二', '十', '五'] ['六'] (by decide) (by decide)
      (by intro c hc; fin_cases hc <;> decide) (by intro c hc; fin_cases hc <;> decide),
    itn_decimal_amended.2.1 '五' 5 rfl,
    itn_decimal_amended.2.2.2.1 '五' 5 rfl (by decide),
    itn_decimal_amended.2.2.2.2.1 '五' 5 rfl,
    itn_decimal_amended.2.2.2.2.2.1 '五' 5 rfl⟩

/-! ## Claim theorems: equivalence of the two postprocess modules (C2) -/

theorem takeWhile_congr {p q : Char → Bool} :
    ∀ {l : List Char}, (∀ c ∈ l, p c = q c) → l.takeWhile p = l.takeWhile q := by
  intro l
  induction l with
  | nil => intro _; rfl
  | cons c r ih =>
    intro h
    rw [List.takeWhile_cons, List.takeWhile_cons, h c (List.mem_cons_self _ _)]
    by_cases hq : q c = true
    · simp [hq, ih (fun x hx => h x (List.mem_cons_of_mem _ hx))]
    · simp [hq]

/-- The two decimal matchers agree on any text on which the two
fractional classes agree. -/
theorem mDec_congr {s : List Char} (h : ∀ c ∈ s, fracClassA c = fracClassF c) :
    mDec fracClassA s = mDec fracClassF s := by
  unfold mDec
  cases hdrop : s.drop (s.takeWhile intClassB).length with
  | nil => rfl
  | cons c r =>
    dsimp only
    rw [takeWhile_congr (fun x hx =>
      h x (List.mem_of_mem_drop (hdrop ▸ List.mem_cons_of_mem _ hx)))]

/-- The text reaching the decimal rule when the ITN flag is set. -/
def midPre (ord : List Char) (l : List Char) : List Char :=
  subst mYear (subst mPercent (mergeReps (cleanFiller ord l)))

/-- C2 (amended): the two `postprocess` functions agree on every text for
which the intermediate text reaching the decimal rule contains no
character on which the two fractional classes differ (ASCII digits, a
backslash, or the letter `d`).  They are not equal in general. -/
theorem postprocess_equivalence (ord : List Char) (l : List Char) (flag : Bool)
    (h : flag = true → ∀ c ∈ midPre ord l, fracClassA c = fracClassF c) :
    postprocessA ord l flag = postprocessF ord l flag := by
  cases flag with
  | false => rfl
  | true =>
    have hmid := h rfl
    unfold postprocessA postprocessF applyItnA applyItnF
    simp only [if_true]
    congr 2
    exact subst_congrm (midPre ord l).length _ (le_refl _)
      (fun s hs => mDec_congr (fun c hc => hmid c (hs.subset hc)))

/-- Witness for the amended C2. -/
theorem postprocess_equivalence_witness :
    postprocessA fillerL "你好".data true = postprocessF fillerL "你好".data true :=
  postprocess_equivalence fillerL "你好".data true (fun _ => by decide)

/-- C2 (counterexample): the two modules differ on `三点5`: the funasr
decimal rule matches an ASCII fractional digit and drops it, yielding
`3.`, while the asr_service rule does not match at all. -/
theorem postprocess_equivalence_counterexample :
    postprocessAStr fillerL "三点5" true ≠ postprocessFStr fillerL "三点5" true := by
  decide

/-! ## Lemmas about `clean_filler_words` (C7) -/

theorem mR2_some {f : Char} {s : List Char} {kr : Nat × List Char}
    (h : mR2 f s = some kr) : f ∈ s ∧ kr.2 = ['，'] := by
  match s with
  | [] => simp [mR2] at h
  | c :: rest =>
    by_cases hc : isComma3 c = true
    · simp only [mR2, hc, if_true] at h
      cases hdrop : rest.drop (rest.takeWhile isPySpace).length with
      | nil => rw [hdrop] at h; simp at h
      | cons d t =>
        rw [hdrop] at h
        cases t with
        | nil => simp at h
        | cons e t2 =>
          dsimp only at h
          split_ifs at h with hcond
          obtain ⟨rfl, -⟩ := hcond
          refine ⟨List.mem_cons_of_mem _
            (List.mem_of_mem_drop (n := (rest.takeWhile isPySpace).length)
              (by rw [hdrop]; exact List.mem_cons_self _ _)), by cases h; rfl⟩
    · simp [mR2, hc] at h

theorem mR3_some {f : Char} {s : List Char} {kr : Nat × List Char}
    (h : mR3 f s = some kr) : f ∈ s ∧ kr.2 = [] := by
  match s with
  | [] => simp [mR3] at h
  | c :: rest =>
    simp only [mR3] at h
    split_ifs at h with hc
    obtain ⟨rfl, -⟩ := hc
    exact ⟨List.mem_cons_self _ _, by cases h; rfl⟩

theorem rule1App_id {f : Char} {l : List Char} (h : f ∉ l) : rule1App f l = l := by
  match l with
  | [] => rfl
  | c :: rest =>
    have hne : ¬ c = f := fun he => h (by rw [← he]; exact List.mem_cons_self _ _)
    simp [rule1App, hne]

theorem rule1App_subset {f : Char} {l : List Char} : ∀ c ∈ rule1App f l, c ∈ l := by
  match l with
  | [] => simp [rule1App]
  | c :: rest =>
    intro x hx
    unfold rule1App at hx
    dsimp only at hx
    by_cases hc : c = f
    · rw [if_pos hc] at hx
      cases rest with
      | nil => simp at hx
      | cons p r2 =>
        dsimp only at hx
        split_ifs at hx with hp
        · exact List.mem_cons_of_mem _ (List.mem_cons_of_mem _
            ((List.dropWhile_sublist _).subset hx))
        · exact List.mem_cons_of_mem _ ((List.dropWhile_sublist _).subset hx)
    · rw [if_neg hc] at hx
      exact hx

theorem subst_mR2_id {f : Char} {l : List Char} (h : f ∉ l) : subst (mR2 f) l = l :=
  subst_id (fun s hs => matcher_none_of (fun kr hm => h (hs.subset (mR2_some hm).1)))

theorem subst_mR3_id {f : Char} {l : List Char} (h : f ∉ l) : subst (mR3 f) l = l :=
  subst_id (fun s hs => matcher_none_of (fun kr hm => h (hs.subset (mR3_some hm).1)))

theorem stepA_id {f : Char} {l : List Char} (h : f ∉ l) : stepA l f = l := by
  unfold stepA
  rw [rule1App_id h, subst_mR2_id h]

theorem stepB_id {f : Char} {l : List Char} (h : f ∉ l) : stepB l f = l :=
  subst_mR3_id h

theorem stepA_subset {f : Char} {l : List Char} : ∀ c ∈ stepA l f, c ∈ l ∨ c = '，' := by
  intro c hc
  unfold stepA at hc
  rcases @subst_subset (mR2 f) ['，']
      (fun s kr hm x hx => by rw [(mR2_some hm).2] at hx; exact hx) _ _ (le_refl _) c hc with
    h | h
  · exact Or.inl (rule1App_subset c h)
  · simp at h
    exact Or.inr h

theorem stepB_subset {f : Char} {l : List Char} : ∀ c ∈ stepB l f, c ∈ l := by
  intro c hc
  unfold stepB at hc
  rcases @subst_subset (mR3 f) []
      (fun s kr hm x hx => by rw [(mR3_some hm).2] at hx; exact absurd hx (List.not_mem_nil x))
      _ _ (le_refl _) c hc with h | h
  · exact h
  · exact absurd h (List.not_mem_nil c)

theorem foldA_id {o : List Char} {t : List Char} (h : ∀ g ∈ o, g ∉ t) :
    o.foldl stepA t = t := by
  induction o with
  | nil => rfl
  | cons g o ih =>
    rw [List.foldl_cons, stepA_id (h g (List.mem_cons_self _ _))]
    exact ih (fun g' hg' => h g' (List.mem_cons_of_mem _ hg'))

theorem foldB_id {o : List Char} {t : List Char} (h : ∀ g ∈ o, g ∉ t) :
    o.foldl stepB t = t := by
  induction o with
  | nil => rfl
  | cons g o ih =>
    rw [List.foldl_cons, stepB_id (h g (List.mem_cons_self _ _))]
    exact ih (fun g' hg' => h g' (List.mem_cons_of_mem _ hg'))

theorem foldA_subset {o : List Char} {t : List Char} :
    ∀ c ∈ o.foldl stepA t, c ∈ t ∨ c = '，' := by
  induction o generalizing t with
  | nil => exact fun c hc => Or.inl hc
  | cons g o ih =>
    intro c hc
    rw [List.foldl_cons] at hc
    rcases ih c hc with h | h
    · exact stepA_subset c h
    · exact Or.inr h

/-- The first loop of `clean_filler_words` over any order made of fillers
in which `f0` occurs at most once, on a text whose only filler is `f0`,
reduces to the single `f0` step. -/
theorem foldA_single {f0 : Char} :
    ∀ (o : List Char) (t : List Char), (∀ g ∈ o, g ∈ fillerL) → o.count f0 ≤ 1 →
      (∀ c ∈ t, c ∈ fillerL → c = f0) →
      o.foldl stepA t = if f0 ∈ o then stepA t f0 else t := by
  intro o
  induction o with
  | nil => intro t _ _ _; simp
  | cons g o ih =>
    intro t hmem hcount hone
    by_cases hg : g = f0
    · subst hg
      rw [List.foldl_cons, if_pos (List.mem_cons_self _ _)]
      have hnot : g ∉ o := by
        intro hgo
        rw [List.count_cons_self] at hcount
        have := List.count_pos_iff.mpr hgo
        omega
      refine foldA_id ?_
      intro g' hg' hmem'
      rcases stepA_subset g' hmem' with h | h
      · exact (by rintro rfl; exact hnot hg' : g' ≠ g) (hone g' h (hmem g' (List.mem_cons_of_mem _ hg')))
      · subst h
        exact absurd (hmem _ (List.mem_cons_of_mem _ hg')) (by decide)
    · have hgt : g ∉ t := fun hmem' =>
        hg (hone g hmem' (hmem g (List.mem_cons_self _ _)))
      rw [List.foldl_cons, stepA_id hgt]
      rw [ih t (fun g' hg' => hmem g' (List.mem_cons_of_mem _ hg'))
        (by rw [List.count_cons_of_ne (Ne.symm hg)] at hcount; exact hcount) hone]
      congr 1
      simp [List.mem_cons, hg]
      tauto

/-- Same for the second loop. -/
theorem foldB_single {f0 : Char} :
    ∀ (o : List Char) (t : List Char), (∀ g ∈ o, g ∈ fillerL) → o.count f0 ≤ 1 →
      (∀ c ∈ t, c ∈ fillerL → c = f0) →
      o.foldl stepB t = if f0 ∈ o then stepB t f0 else t := by
  intro o
  induction o with
  | nil => intro t _ _ _; simp
  | cons g o ih =>
    intro t hmem hcount hone
    by_cases hg : g = f0
    · subst hg
      rw [List.foldl_cons, if_pos (List.mem_cons_self _ _)]
      have hnot : g ∉ o := by
        intro hgo
        rw [List.count_cons_self] at hcount
        have := List.count_pos_iff.mpr hgo
        omega
      refine foldB_id ?_
      intro g' hg' hmem'
      have h := stepB_subset g' hmem'
      exact (by rintro rfl; exact hnot hg' : g' ≠ g)
        (hone g' h (hmem g' (List.mem_cons_of_mem _ hg')))
    · have hgt : g ∉ t := fun hmem' =>
        hg (hone g hmem' (hmem g (List.mem_cons_self _ _)))
      rw [List.foldl_cons, stepB_id hgt]
      rw [ih t (fun g' hg' => hmem g' (List.mem_cons_of_mem _ hg'))
        (by rw [List.count_cons_of_ne (Ne.symm hg)] at hcount; exact hcount) hone]
      congr 1
      simp [List.mem_cons, hg]
      tauto

/-! ## Claim theorems: filler-filter order dependence (C7) -/

/-- C7 (counterexample): the output of `clean_filler_words` depends on the
iteration order of the Python set `FILLER_WORDS`: on `呃嗯，你好`, an
order trying `呃` first yields `你好`, while an order trying `嗯` first
yields `嗯，你好`. -/
theorem fillerFilter_order_counterexample :
    cleanFillerStr fillerL "呃嗯，你好" ≠
      cleanFillerStr ('嗯' :: '呃' :: ['啊', '哎', '额', '噢', '哦', '呀', '诶', '唉'])
        "呃嗯，你好" := by
  decide

/-- C7 (amended): on texts containing at most one distinct filler
character, the result of `clean_filler_words` is the same for every
iteration order of the filler set. -/
theorem fillerFilter_order_amended (o1 o2 l : List Char)
    (h1 : o1.Perm fillerL) (h2 : o2.Perm fillerL)
    (hone : ∃ f ∈ fillerL, ∀ c ∈ l, c ∈ fillerL → c = f) :
    cleanFiller o1 l = cleanFiller o2 l := by
  obtain ⟨f0, hf0, honel⟩ := hone
  have key : ∀ o : List Char, o.Perm fillerL → cleanBody o l = stepB (stepA l f0) f0 := by
    intro o ho
    have hmemo : ∀ g ∈ o, g ∈ fillerL := fun g hg => ho.mem_iff.mp hg
    have hcount : o.count f0 = 1 := by
      rw [ho.count_eq]
      exact List.count_eq_one_of_mem (by decide) hf0
    have hf0o : f0 ∈ o := ho.mem_iff.mpr hf0
    have ht1 : ∀ c ∈ stepA l f0, c ∈ fillerL → c = f0 := by
      intro c hc hcf
      rcases stepA_subset c hc with h | h
      · exact honel c h hcf
      · subst h
        exact absurd hcf (by decide)
    unfold cleanBody
    rw [foldA_single o l hmemo (le_of_eq hcount) honel, if_pos hf0o,
      foldB_single o (stepA l f0) hmemo (le_of_eq hcount) ht1, if_pos hf0o]
  unfold cleanFiller
  rw [key o1 h1, key o2 h2]

/-- Witness for the amended C7 at two concrete permutations. -/
theorem fillerFilter_order_amended_witness :
    cleanFiller fillerL "嗯，你好".data = cleanFiller fillerL.reverse "嗯，你好".data :=
  fillerFilter_order_amended fillerL fillerL.reverse "嗯，你好".data
    (List.Perm.refl _) (by decide) ⟨'嗯', by decide, by decide⟩

/-! ## Toolkit for the idempotence claim (C6): infixes and transport -/

theorem infix_of_pre {x y : List Char} (h : x <+: y) : x <:+: y := by
  obtain ⟨t, ht⟩ := h
  exact ⟨[], t, by simp [ht]⟩

theorem infix_of_suf {x y : List Char} (h : x <:+ y) : x <:+: y := by
  obtain ⟨t, ht⟩ := h
  exact ⟨t, [], by simp [ht]⟩

theorem head?_some_ex {l : List Char} {c : Char} (h : l.head? = some c) :
    ∃ r, l = c :: r := by
  cases l with
  | nil => simp at h
  | cons x r =>
    simp at h
    exact ⟨r, by rw [h]⟩

theorem drop_len_takeWhile (p : Char → Bool) :
    ∀ l : List Char, l.drop (l.takeWhile p).length = l.dropWhile p := by
  intro l
  induction l with
  | nil => rfl
  | cons c r ih =>
    rw [List.takeWhile_cons, List.dropWhile_cons]
    by_cases hc : p c = true
    · simp [hc, ih]
    · simp [hc]

theorem head_dropWhile {p : Char → Bool} :
    ∀ {l : List Char} {c : Char} {r : List Char}, l.dropWhile p = c :: r → p c = false := by
  intro l
  induction l with
  | nil => intro c r h; simp at h
  | cons x xs ih =>
    intro c r h
    rw [List.dropWhile_cons] at h
    by_cases hx : p x = true
    · rw [if_pos hx] at h
      exact ih h
    · rw [if_neg hx] at h
      injection h with h1 _
      rw [← h1]
      exact Bool.eq_false_iff.mpr hx

theorem infix_append_neutral {P : Char → Prop} {pat : List Char} :
    ∀ {a X : List Char}, (∀ c ∈ a, P c) → (∀ c ∈ pat, ¬ P c) →
      pat <:+: a ++ X → pat <:+: X := by
  intro a
  induction a with
  | nil => intro X _ _ h; exact h
  | cons c a ih =>
    intro X ha hpat h
    rcases List.infix_cons_iff.mp h with h | h
    · match pat, h with
      | [], _ => exact List.nil_infix
      | p :: pat', h =>
        obtain ⟨rfl, -⟩ := List.cons_prefix_cons.mp h
        exact absurd (ha p (List.mem_cons_self _ _)) (hpat p (List.mem_cons_self _ _))
    · exact ih (fun x hx => ha x (List.mem_cons_of_mem _ hx)) hpat h

theorem infix_concat_elim {pat y : List Char} {d : Char} (hd : d ∉ pat) :
    pat <:+: y ++ [d] → pat <:+: y := by
  intro h
  rw [← List.reverse_infix] at h ⊢
  rw [List.reverse_append, List.reverse_singleton, List.singleton_append] at h
  rcases List.infix_cons_iff.mp h with h | h
  · cases hp : pat.reverse with
    | nil => exact List.nil_infix
    | cons q qr =>
      rw [hp] at h
      obtain ⟨rfl, -⟩ := List.cons_prefix_cons.mp h
      exact absurd (by rw [← List.mem_reverse, hp]; exact List.mem_cons_self _ _) hd
  · exact h

/-- Prefix transport: a pattern of non-neutral characters that is a prefix
of the output of a substitution with nonempty all-neutral replacements is
a prefix of the input. -/
theorem subst_pre_rev {m : List Char → Option (Nat × List Char)} {P : Char → Prop}
    (Hrep : ∀ s kr, m s = some kr → kr.2 ≠ [] ∧ ∀ c ∈ kr.2, P c) :
    ∀ (n : Nat) (pat l : List Char), (∀ c ∈ pat, ¬ P c) → l.length ≤ n →
      pat <+: subst m l → pat <+: l := by
  intro n
  induction n with
  | zero =>
    intro pat l _ hl h
    have he : l = [] := List.eq_nil_of_length_eq_zero (Nat.le_zero.mp hl)
    subst he
    rwa [subst_nil] at h
  | succ n ih =>
    intro pat l hpat hl h
    match l with
    | [] => exact h
    | c :: rest =>
      cases hm : m (c :: rest) with
      | none =>
        rw [subst_cons_none hm] at h
        match pat, hpat, h with
        | [], _, _ => exact List.nil_prefix
        | p :: pat', hpat, h =>
          obtain ⟨rfl, h'⟩ := List.cons_prefix_cons.mp h
          exact List.cons_prefix_cons.mpr ⟨rfl, ih pat' rest
            (fun x hx => hpat x (List.mem_cons_of_mem _ hx)) (by simp at hl; omega) h'⟩
      | some kr =>
        obtain ⟨k, r⟩ := kr
        rw [subst_cons_some hm] at h
        obtain ⟨hne, hnr⟩ := Hrep _ _ hm
        cases r with
        | nil => exact absurd rfl hne
        | cons r0 r' =>
          rw [List.cons_append] at h
          match pat, hpat, h with
          | [], _, _ => exact List.nil_prefix
          | p :: pat', hpat, h =>
            obtain ⟨rfl, -⟩ := List.cons_prefix_cons.mp h
            exact absurd (hnr p (List.mem_cons_self _ _)) (hpat p (List.mem_cons_self _ _))

/-- Infix transport for substitutions with nonempty all-neutral
replacements: such substitutions create no new occurrences of patterns of
non-neutral characters. -/
theorem subst_infix_rev {m : List Char → Option (Nat × List Char)} {P : Char → Prop}
    (Hrep : ∀ s kr, m s = some kr → kr.2 ≠ [] ∧ ∀ c ∈ kr.2, P c)
    {pat : List Char} (hpat : ∀ c ∈ pat, ¬ P c) :
    ∀ (n : Nat) (l : List Char), l.length ≤ n → pat <:+: subst m l → pat <:+: l := by
  intro n
  induction n with
  | zero =>
    intro l hl h
    have he : l = [] := List.eq_nil_of_length_eq_zero (Nat.le_zero.mp hl)
    subst he
    rwa [subst_nil] at h
  | succ n ih =>
    intro l hl h
    match l with
    | [] => exact h
    | c :: rest =>
      cases hm : m (c :: rest) with
      | none =>
        rw [subst_cons_none hm] at h
        rcases List.infix_cons_iff.mp h with h | h
        · match pat, h with
          | [], _ => exact List.nil_infix
          | p :: pat', h =>
            obtain ⟨rfl, h'⟩ := List.cons_prefix_cons.mp h
            have hp' := subst_pre_rev Hrep rest.length pat' rest
              (fun x hx => hpat x (List.mem_cons_of_mem _ hx)) (le_refl _) h'
            exact infix_of_pre (List.cons_prefix_cons.mpr ⟨rfl, hp'⟩)
        · exact List.infix_cons_iff.mpr (Or.inr (ih rest (by simp at hl; omega) h))
      | some kr =>
        obtain ⟨k, r⟩ := kr
        rw [subst_cons_some hm] at h
        obtain ⟨hne, hnr⟩ := Hrep _ _ hm
        have h2 : pat <:+: subst m (rest.drop k) := infix_append_neutral hnr hpat h
        have h3 : pat <:+: rest.drop k :=
          ih (rest.drop k) (by simp only [List.length_drop]; simp at hl; omega) h2
        exact List.infix_cons_iff.mpr
          (Or.inr (h3.trans (infix_of_suf (List.drop_suffix k rest))))

/-! ## Lemmas about `strip` -/

/-- No trailing whitespace. -/
def lastNWS (l : List Char) : Prop :=
  ∀ c, l.getLast? = some c → isPySpace c = false

theorem stripL_inf (l : List Char) : stripL l <:+: l := by
  have h1 : (l.dropWhile isPySpace).reverse.dropWhile isPySpace <:+
      (l.dropWhile isPySpace).reverse := List.dropWhile_suffix _
  have h2 : ((l.dropWhile isPySpace).reverse.dropWhile isPySpace).reverse <+:
      l.dropWhile isPySpace := by
    rw [← List.reverse_suffix]
    simpa using h1
  exact (infix_of_pre h2).trans (infix_of_suf (List.dropWhile_suffix _))

theorem stripL_subset {l : List Char} : ∀ c ∈ stripL l, c ∈ l :=
  fun _ hc => (stripL_inf l).subset hc

theorem head_stripL {l : List Char} {c : Char} (h : (stripL l).head? = some c) :
    isPySpace c = false := by
  unfold stripL at h
  obtain ⟨r, hr⟩ := head?_some_ex h
  have hp : (stripL l) <+: l.dropWhile isPySpace := by
    rw [← List.reverse_suffix]
    simpa [stripL] using List.dropWhile_suffix (l := (l.dropWhile isPySpace).reverse) isPySpace
  obtain ⟨t, ht⟩ := hp
  unfold stripL at ht
  rw [hr] at ht
  exact head_dropWhile ht.symm

theorem lastNWS_stripL (l : List Char) : lastNWS (stripL l) := by
  intro c hc
  unfold stripL at hc
  rw [List.getLast?_eq_head?_reverse, List.reverse_reverse] at hc
  obtain ⟨r, hr⟩ := head?_some_ex hc
  exact head_dropWhile hr

theorem stripL_eq_self {l : List Char}
    (h1 : ∀ c, l.head? = some c → isPySpace c = false) (h2 : lastNWS l) :
    stripL l = l := by
  unfold stripL
  have e1 : l.dropWhile isPySpace = l := by
    cases l with
    | nil => rfl
    | cons c r =>
      rw [List.dropWhile_cons, if_neg (by simp [h1 c rfl])]
  rw [e1]
  have e2 : l.reverse.dropWhile isPySpace = l.reverse := by
    cases hr : l.reverse with
    | nil => rfl
    | cons c r =>
      rw [List.dropWhile_cons, if_neg ?_]
      have hlast : l.getLast? = some c := by
        rw [List.getLast?_eq_head?_reverse, hr]
        rfl
      simp [h2 c hlast]
  rw [e2, List.reverse_reverse]

theorem stripL_idem (l : List Char) : stripL (stripL l) = stripL l :=
  stripL_eq_self (fun _ h => head_stripL h) (lastNWS_stripL l)

/-- A nonempty suffix shares its last element with the whole list. -/
theorem getLast?_suffix {x y : List Char} (h : x <:+ y) (hne : x ≠ []) :
    x.getLast? = y.getLast? := by
  obtain ⟨t, rfl⟩ := h
  rw [List.getLast?_append]
  cases hx : x.getLast? with
  | none => exact absurd (List.getLast?_eq_none_iff.mp hx) hne
  | some c => rfl

/-- A nonempty prefix shares its head with the whole list. -/
theorem head?_pre {x y : List Char} (h : x <+: y) (hne : x ≠ []) :
    x.head? = y.head? := by
  obtain ⟨t, rfl⟩ := h
  cases x with
  | nil => exact absurd rfl hne
  | cons c r => rfl

/-- On a list with no trailing whitespace, stripping only trims the
front. -/
theorem stripL_of_lastNWS {l : List Char} (h : lastNWS l) :
    stripL l = l.dropWhile isPySpace := by
  unfold stripL
  have e2 : (l.dropWhile isPySpace).reverse.dropWhile isPySpace =
      (l.dropWhile isPySpace).reverse := by
    cases hr : (l.dropWhile isPySpace).reverse with
    | nil => rfl
    | cons c r =>
      rw [List.dropWhile_cons, if_neg ?_]
      have hne : l.dropWhile isPySpace ≠ [] := by
        intro he
        rw [he] at hr
        simp at hr
      have hl : (l.dropWhile isPySpace).getLast? = l.getLast? :=
        getLast?_suffix (List.dropWhile_suffix _) hne
      have hc : l.getLast? = some c := by
        rw [← hl, List.getLast?_eq_head?_reverse, hr]
        rfl
      simp [h c hc]
  rw [e2, List.reverse_reverse]

theorem getLast?_stripL {l : List Char} (h : lastNWS l) (hne : stripL l ≠ []) :
    (stripL l).getLast? = l.getLast? := by
  rw [stripL_of_lastNWS h] at hne ⊢
  exact getLast?_suffix (List.dropWhile_suffix _) hne

/-! ## Lemmas about `merge_repetitions` fixpoints -/

/-- No run of three equal CJK characters (no pass-1 match). -/
def noTriple (l : List Char) : Prop :=
  ∀ c, isCJKb c = true → ¬ ([c, c, c] <:+: l)

/-- No thrice-repeated CJK pair (no pass-2 two-character match). -/
def noPair3 (l : List Char) : Prop :=
  ∀ a b, isCJKb a = true → isCJKb b = true → ¬ ([a, b, a, b, a, b] <:+: l)

theorem runLen_ge2 {c : Char} {rest : List Char} (h : 2 ≤ runLen c rest) :
    ∃ t, rest = c :: c :: t := by
  match rest with
  | [] => simp [runLen] at h
  | [x] =>
    unfold runLen at h
    rw [List.takeWhile_cons] at h
    by_cases hx : x = c
    · simp [hx] at h
    · simp [hx] at h
  | x :: y :: r =>
    unfold runLen at h
    rw [List.takeWhile_cons] at h
    by_cases hx : x = c
    · by_cases hy : y = c
      · exact ⟨r, by rw [hx, hy]⟩
      · exfalso
        simp [hx, hy, List.takeWhile_cons] at h
    · simp [hx] at h

theorem pairReps_ge2 {a b : Char} {r : List Char} (h : 2 ≤ pairReps a b r) :
    ∃ t, r = a :: b :: a :: b :: t := by
  match r with
  | [] => simp [pairReps] at h
  | [x] => simp [pairReps] at h
  | x :: y :: rr =>
    unfold pairReps at h
    split_ifs at h with h1
    · obtain ⟨rfl, rfl⟩ := h1
      have h2 : 1 ≤ pairReps x y rr := by omega
      match rr with
      | [] => simp [pairReps] at h2
      | [z] => simp [pairReps] at h2
      | z :: w :: rr2 =>
        unfold pairReps at h2
        split_ifs at h2 with h3
        · obtain ⟨rfl, rfl⟩ := h3
          exact ⟨rr2, rfl⟩
        · omega
    · omega

theorem mPass1_some {s : List Char} {kr : Nat × List Char} (h : mPass1 s = some kr) :
    ∃ c t, isCJKb c = true ∧ s = c :: c :: c :: t := by
  match s with
  | [] => simp [mPass1] at h
  | c :: rest =>
    simp only [mPass1] at h
    split_ifs at h with hc
    obtain ⟨t, rfl⟩ := runLen_ge2 hc.2
    exact ⟨c, t, hc.1, rfl⟩

theorem mPass2_some {s : List Char} {kr : Nat × List Char} (h : mPass2 s = some kr) :
    (∃ c t, isCJKb c = true ∧ s = c :: c :: c :: t) ∨
      (∃ a b t, isCJKb a = true ∧ isCJKb b = true ∧
        s = a :: b :: a :: b :: a :: b :: t) := by
  match s with
  | [] => simp [mPass2] at h
  | [a] =>
    simp only [mPass2] at h
    split_ifs at h <;> simp at h
  | a :: b :: rest2 =>
    simp only [mPass2] at h
    split_ifs at h with hA h2 h1
    · obtain ⟨t, rfl⟩ := pairReps_ge2 h2.2
      exact Or.inr ⟨a, b, t, hA, h2.1, rfl⟩
    · obtain ⟨t, heq⟩ := @runLen_ge2 a (b :: rest2) h1
      rw [heq]
      exact Or.inl ⟨a, t, hA, rfl⟩

theorem subst_pass1_id {l : List Char} (h : noTriple l) : subst mPass1 l = l :=
  subst_id fun s hs => matcher_none_of fun kr hm => by
    obtain ⟨c, t, hc, rfl⟩ := mPass1_some hm
    exact h c hc ((infix_of_pre ⟨t, rfl⟩).trans (infix_of_suf hs))

theorem subst_pass2_id {l : List Char} (h1 : noTriple l) (h2 : noPair3 l) :
    subst mPass2 l = l :=
  subst_id fun s hs => matcher_none_of fun kr hm => by
    rcases mPass2_some hm with ⟨c, t, hc, rfl⟩ | ⟨a, b, t, ha, hb, rfl⟩
    · exact h1 c hc ((infix_of_pre ⟨t, rfl⟩).trans (infix_of_suf hs))
    · exact h2 a b ha hb ((infix_of_pre ⟨t, rfl⟩).trans (infix_of_suf hs))

theorem mergeReps_id {l : List Char} (h1 : noTriple l) (h2 : noPair3 l) :
    mergeReps l = l := by
  unfold mergeReps
  rw [subst_pass1_id h1, subst_pass2_id h1 h2]

theorem noTriple_mono {x y : List Char} (hxy : x <:+: y) (h : noTriple y) :
    noTriple x :=
  fun c hc hinf => h c hc (hinf.trans hxy)

theorem noPair3_mono {x y : List Char} (hxy : x <:+: y) (h : noPair3 y) :
    noPair3 x :=
  fun a b ha hb hinf => h a b ha hb (hinf.trans hxy)

/-! ## Identity corollaries for the other pipeline stages -/

theorem intClass_sub_numeral : ∀ c ∈ intClassL, c ∈ numeralL := by decide

theorem unitNum_sub_numeral : ∀ c ∈ unitNumL, c ∈ numeralL := by decide

theorem yearClass_sub_numeral : ∀ c ∈ yearClassL, c ∈ numeralL := by decide

theorem cleanFiller_id {ord l : List Char} (hord : ∀ f ∈ ord, f ∈ fillerL)
    (h : ∀ c ∈ l, c ∉ fillerL) : cleanFiller ord l = stripL l := by
  unfold cleanFiller cleanBody
  rw [foldA_id (fun g hg hgt => h g hgt (hord g hg)),
    foldB_id (fun g hg hgt => h g hgt (hord g hg))]

theorem applyItnA_id {l : List Char} (h : ∀ c ∈ l, c ∉ numeralL) : applyItnA l = l := by
  unfold applyItnA
  have hper : subst mPercent l = l := subst_percent_id (fun hb => h '百' hb (by decide))
  have hy : subst mYear l = l := subst_id fun s hs => matcher_none_of fun kr hm => by
    obtain ⟨c, hcs, hcy⟩ := mYear_mem_year hm
    exact h c (hs.subset hcs) (yearClass_sub_numeral c hcy)
  have hd : subst (mDec fracClassA) l = l := subst_id fun s hs =>
    matcher_none_of fun kr hm => by
      obtain ⟨c, hcs, hci⟩ := mDec_mem_int hm
      exact h c (hs.subset hcs) (intClass_sub_numeral c (of_decide_eq_true hci))
  have hu : subst mUnit l = l := subst_id fun s hs => matcher_none_of fun kr hm => by
    obtain ⟨c, hcs, hcu⟩ := mUnit_mem_num hm
    exact h c (hs.subset hcs) (unitNum_sub_numeral c (of_decide_eq_true hcu))
  rw [hper, hy, hd, hu]

/-! ## Lemmas about the final punctuation collapse -/

/-- No two adjacent comma-class separators. -/
def noCP (l : List Char) : Prop :=
  ∀ a b, isCnComma a = true → isCnComma b = true → ¬ ([a, b] <:+: l)

theorem takeWhile_len1 {p : Char → Bool} {l : List Char}
    (h : 1 ≤ (l.takeWhile p).length) : ∃ b t, l = b :: t ∧ p b = true := by
  match l with
  | [] => simp at h
  | b :: t =>
    rw [List.takeWhile_cons] at h
    by_cases hb : p b = true
    · exact ⟨b, t, rfl, hb⟩
    · simp [hb] at h

theorem mPunct_some {s : List Char} {kr : Nat × List Char} (h : mPunct s = some kr) :
    (∃ a b t, isCnComma a = true ∧ isCnComma b = true ∧ s = a :: b :: t) ∧
      kr.2 = ['，'] := by
  match s with
  | [] => simp [mPunct] at h
  | c :: rest =>
    simp only [mPunct] at h
    split_ifs at h with hc
    obtain ⟨b, t, rfl, hb⟩ := takeWhile_len1 hc.2
    exact ⟨⟨c, b, t, hc.1, hb, rfl⟩, by cases h; rfl⟩

theorem mPunct_some_shape {c : Char} {rest : List Char} {k : Nat} {r : List Char}
    (h : mPunct (c :: rest) = some (k, r)) :
    k = (rest.takeWhile isCnComma).length ∧ r = ['，'] ∧ isCnComma c = true := by
  simp only [mPunct] at h
  split_ifs at h with hcond
  cases h
  exact ⟨rfl, rfl, hcond.1⟩

theorem subst_mPunct_id {l : List Char} (h : noCP l) : subst mPunct l = l :=
  subst_id fun s hs => matcher_none_of fun kr hm => by
    obtain ⟨⟨a, b, t, ha, hb, rfl⟩, -⟩ := mPunct_some hm
    exact h a b ha hb ((infix_of_pre ⟨t, rfl⟩).trans (infix_of_suf hs))

theorem mPunct_fires {c d : Char} (r : List Char) (hc : isCnComma c = true)
    (hd : isCnComma d = true) : mPunct (c :: d :: r) ≠ none := by
  simp only [mPunct, List.takeWhile_cons, hd, if_true]
  simp [hc]

theorem subst_ne_nil {m : List Char → Option (Nat × List Char)} {x : List Char}
    (hrep : ∀ s kr, m s = some kr → kr.2 ≠ []) (h : x ≠ []) : subst m x ≠ [] := by
  match x with
  | [] => exact absurd rfl h
  | c :: rest =>
    cases hm : m (c :: rest) with
    | none =>
      rw [subst_cons_none hm]
      simp
    | some kr =>
      obtain ⟨k, r⟩ := kr
      rw [subst_cons_some hm]
      have hne := hrep _ _ hm
      cases r with
      | nil => exact absurd rfl hne
      | cons r0 r' => simp

/-- The punctuation collapse leaves no two adjacent separators. -/
theorem noCP_subst_mPunct : ∀ (n : Nat) (x : List Char), x.length ≤ n →
    noCP (subst mPunct x) := by
  intro n
  induction n with
  | zero =>
    intro x hl
    have he : x = [] := List.eq_nil_of_length_eq_zero (Nat.le_zero.mp hl)
    subst he
    rw [subst_nil]
    intro a b _ _ hinf
    exact absurd (List.infix_nil.mp hinf) (by simp)
  | succ n ih =>
    intro x hl
    match x with
    | [] =>
      rw [subst_nil]
      intro a b _ _ hinf
      exact absurd (List.infix_nil.mp hinf) (by simp)
    | c :: rest =>
      cases hm : mPunct (c :: rest) with
      | some kr =>
        obtain ⟨k, r⟩ := kr
        obtain ⟨hkk, hrr, hcC⟩ := mPunct_some_shape hm
        subst hkk
        subst hrr
        rw [subst_cons_some hm, drop_len_takeWhile]
        intro a b ha hb hinf
        rw [List.singleton_append] at hinf
        rcases List.infix_cons_iff.mp hinf with hpre | hinf2
        · obtain ⟨rfl, hb'⟩ := List.cons_prefix_cons.mp hpre
          cases hsy : subst mPunct (rest.dropWhile isCnComma) with
          | nil =>
            rw [hsy] at hb'
            simp at hb'
          | cons d out' =>
            rw [hsy] at hb'
            obtain ⟨rfl, -⟩ := List.cons_prefix_cons.mp hb'
            cases hyy : rest.dropWhile isCnComma with
            | nil =>
              rw [hyy, subst_nil] at hsy
              exact absurd hsy (by simp)
            | cons y0 y' =>
              have hy0 : isCnComma y0 = false := head_dropWhile hyy
              have hny : mPunct (y0 :: y') = none := by simp [mPunct, hy0]
              rw [hyy, subst_cons_none hny] at hsy
              injection hsy with h1 _
              rw [← h1] at hb
              rw [hy0] at hb
              exact Bool.noConfusion hb
        · refine ih (rest.dropWhile isCnComma) ?_ a b ha hb hinf2
          have := (List.dropWhile_sublist (l := rest) isCnComma).length_le
          simp at hl
          omega
      | none =>
        rw [subst_cons_none hm]
        intro a b ha hb hinf
        rcases List.infix_cons_iff.mp hinf with hpre | hinf2
        · obtain ⟨rfl, hb'⟩ := List.cons_prefix_cons.mp hpre
          cases hre : rest with
          | nil =>
            rw [hre, subst_nil] at hb'
            simp at hb'
          | cons d r2 =>
            cases hmr : mPunct (d :: r2) with
            | some kr2 =>
              obtain ⟨⟨a', b', t', ha', hb'', heq⟩, -⟩ := mPunct_some hmr
              injection heq with e1 _
              rw [hre] at hm
              exact absurd hm (mPunct_fires r2 ha (e1 ▸ ha'))
            | none =>
              rw [hre, subst_cons_none hmr] at hb'
              obtain ⟨rfl, -⟩ := List.cons_prefix_cons.mp hb'
              rw [hre] at hm
              exact absurd hm (mPunct_fires r2 ha hb)
        · refine ih rest ?_ a b ha hb hinf2
          simp at hl
          omega

/-- The punctuation collapse preserves the absence of trailing
whitespace. -/
theorem lastNWS_subst_mPunct : ∀ (n : Nat) (x : List Char), x.length ≤ n →
    lastNWS x → lastNWS (subst mPunct x) := by
  intro n
  induction n with
  | zero =>
    intro x hl h
    have he : x = [] := List.eq_nil_of_length_eq_zero (Nat.le_zero.mp hl)
    subst he
    rwa [subst_nil]
  | succ n ih =>
    intro x hl h
    match x with
    | [] =>
      rwa [subst_nil]
    | c :: rest =>
      cases hm : mPunct (c :: rest) with
      | some kr =>
        obtain ⟨k, r⟩ := kr
        obtain ⟨hkk, hrr, -⟩ := mPunct_some_shape hm
        subst hkk
        subst hrr
        rw [subst_cons_some hm, drop_len_takeWhile]
        by_cases hy0 : rest.dropWhile isCnComma = []
        · rw [hy0, subst_nil, List.append_nil]
          intro c' hc'
          simp at hc'
          rw [← hc']
          decide
        · have hrest_ne : rest ≠ [] := by
            intro hre
            rw [hre] at hy0
            exact hy0 rfl
          have hyl : lastNWS (rest.dropWhile isCnComma) := by
            intro c' hc'
            refine h c' ?_
            rw [getLast?_suffix (List.dropWhile_suffix _) hy0] at hc'
            cases hre : rest with
            | nil => exact absurd hre hrest_ne
            | cons d r2 =>
              rw [List.getLast?_cons_cons]
              rw [hre] at hc'
              exact hc'
          have hrec := ih (rest.dropWhile isCnComma)
            (by
              have := (List.dropWhile_sublist (l := rest) isCnComma).length_le
              simp at hl
              omega) hyl
          intro c' hc'
          rw [List.singleton_append] at hc'
          cases hsy : subst mPunct (rest.dropWhile isCnComma) with
          | nil =>
            rw [hsy] at hc'
            simp at hc'
            rw [← hc']
            decide
          | cons d out' =>
            rw [hsy, List.getLast?_cons_cons] at hc'
            refine hrec c' ?_
            rw [hsy]
            exact hc'
      | none =>
        rw [subst_cons_none hm]
        intro c' hc'
        cases hre : rest with
        | nil =>
          rw [hre, subst_nil] at hc'
          simp at hc'
          refine h c' ?_
          rw [hre, ← hc']
          rfl
        | cons d r2 =>
          have hne : subst mPunct rest ≠ [] :=
            subst_ne_nil (fun s kr hmk => by
              obtain ⟨-, hr⟩ := mPunct_some hmk
              rw [hr]
              simp) (by rw [hre]; simp)
          have hlast : (c :: subst mPunct rest).getLast? = (subst mPunct rest).getLast? := by
            cases hs2 : subst mPunct rest with
            | nil => exact absurd hs2 hne
            | cons e o => rw [List.getLast?_cons_cons]
          rw [hlast] at hc'
          have hrest_l : lastNWS rest := by
            intro c'' hc''
            refine h c'' ?_
            rw [hre] at hc'' ⊢
            rw [List.getLast?_cons_cons]
            exact hc''
          refine ih rest (by simp at hl; omega) hrest_l c' hc'

/-! ## Lemmas about the trailing-comma substitution and `tidy` -/

theorem subTrail_of_last {l : List Char} {c : Char} (h : l.getLast? = some c)
    (h1 : c ≠ '，') (h2 : c ≠ '\n') : subTrail l = l := by
  unfold subTrail
  rw [List.getLast?_eq_head?_reverse] at h
  obtain ⟨r, hr⟩ := head?_some_ex h
  rw [hr]
  dsimp only
  rw [if_neg h1, if_neg h2]

theorem subTrail_comma {l : List Char} (h : l.getLast? = some '，') :
    subTrail l = l.dropLast ++ ['。'] ∧ l = l.dropLast ++ ['，'] := by
  have h' := h
  rw [List.getLast?_eq_head?_reverse] at h'
  obtain ⟨r, hr⟩ := head?_some_ex h'
  have hl : l = r.reverse ++ ['，'] := by
    have h2 := congrArg List.reverse hr
    rw [List.reverse_reverse] at h2
    rw [h2]
    simp
  have hdl : l.dropLast = r.reverse := by
    rw [hl, List.dropLast_concat]
  constructor
  · unfold subTrail
    rw [hr]
    dsimp only
    rw [if_pos rfl, hdl]
  · rw [hdl]
    exact hl

theorem subTrail_spec_nws {w : List Char} (hw : lastNWS w) :
    (subTrail w = w ∧ w.getLast? ≠ some '，') ∨
      (w.getLast? = some '，' ∧ subTrail w = w.dropLast ++ ['。'] ∧
        w = w.dropLast ++ ['，']) := by
  cases hlast : w.getLast? with
  | none =>
    have he : w = [] := List.getLast?_eq_none_iff.mp hlast
    subst he
    exact Or.inl ⟨rfl, by simp⟩
  | some c =>
    by_cases hc : c = '，'
    · subst hc
      obtain ⟨h1, h2⟩ := subTrail_comma hlast
      exact Or.inr ⟨rfl, h1, h2⟩
    · have hn : c ≠ '\n' := by
        intro he
        subst he
        exact absurd (hw _ hlast) (by decide)
      exact Or.inl ⟨subTrail_of_last hlast hc hn, by simp [hc]⟩

theorem subTrail_subset {w : List Char} (hw : lastNWS w) :
    ∀ c ∈ subTrail w, c ∈ w ∨ c = '。' := by
  rcases subTrail_spec_nws hw with ⟨he, -⟩ | ⟨-, he, -⟩ <;> rw [he]
  · exact fun c hc => Or.inl hc
  · intro c hc
    rcases List.mem_append.mp hc with h | h
    · exact Or.inl (List.mem_of_mem_dropLast h)
    · simp at h
      exact Or.inr h

theorem infix_subTrail {w pat : List Char} (hw : lastNWS w) (hpat : '。' ∉ pat) :
    pat <:+: subTrail w → pat <:+: w := by
  rcases subTrail_spec_nws hw with ⟨he, -⟩ | ⟨-, he, -⟩ <;> rw [he]
  · exact id
  · intro h
    exact (infix_concat_elim hpat h).trans (infix_of_pre ( List.dropLast_prefix w))

theorem subTrail_last {w : List Char} (hw : lastNWS w) :
    lastNWS (subTrail w) ∧ (subTrail w).getLast? ≠ some '，' := by
  rcases subTrail_spec_nws hw with ⟨he, hne⟩ | ⟨-, he, -⟩ <;> rw [he]
  · exact ⟨hw, hne⟩
  · constructor
    · intro c hc
      rw [List.getLast?_concat] at hc
      injection hc with hc
      rw [← hc]
      decide
    · rw [List.getLast?_concat]
      simp

/-- The cleanup `tidy` is idempotent on inputs without trailing whitespace. -/
theorem tidy_idem {v : List Char} (hv : lastNWS v) : tidy (tidy v) = tidy v := by
  have hwl : lastNWS (subst mPunct v) := lastNWS_subst_mPunct v.length v (le_refl _) hv
  have hwcp : noCP (subst mPunct v) := noCP_subst_mPunct v.length v (le_refl _)
  have hzl : lastNWS (subTrail (subst mPunct v)) := (subTrail_last hwl).1
  have hzc : (subTrail (subst mPunct v)).getLast? ≠ some '，' := (subTrail_last hwl).2
  have hzcp : noCP (subTrail (subst mPunct v)) := by
    intro a b ha hb hinf
    refine hwcp a b ha hb (infix_subTrail hwl ?_ hinf)
    intro hmem
    rcases List.mem_cons.mp hmem with he | he
    · rw [← he] at ha
      exact absurd ha (by decide)
    · simp at he
      rw [← he] at hb
      exact absurd hb (by decide)
  show tidy (stripL (subTrail (subst mPunct v))) = tidy v
  have hucp : noCP (stripL (subTrail (subst mPunct v))) := fun a b ha hb hinf =>
    hzcp a b ha hb (hinf.trans (stripL_inf _))
  unfold tidy
  rw [subst_mPunct_id hucp]
  by_cases hnil : stripL (subTrail (subst mPunct v)) = []
  · rw [hnil]
    rw [show subTrail ([] : List Char) = [] from rfl]
    rw [show stripL ([] : List Char) = [] from rfl, ← hnil]
  · have hul : lastNWS (stripL (subTrail (subst mPunct v))) := lastNWS_stripL _
    cases hug : (stripL (subTrail (subst mPunct v))).getLast? with
    | none => exact absurd (List.getLast?_eq_none_iff.mp hug) hnil
    | some c =>
      have hule : (stripL (subTrail (subst mPunct v))).getLast? =
          (subTrail (subst mPunct v)).getLast? := getLast?_stripL hzl hnil
      have hc1 : c ≠ '，' := by
        intro he
        rw [he] at hug
        exact hzc (hule ▸ hug)
      have hc2 : c ≠ '\n' := by
        intro he
        rw [he] at hug
        exact absurd (hul _ hug) (by decide)
      rw [subTrail_of_last hug hc1 hc2]
      exact stripL_idem _

/-! ## Decidable stutter checkers -/

/-- Scans for a run of three equal CJK characters. -/
def hasRun3 : List Char → Bool
  | a :: b :: c :: r => (a = b && b = c && isCJKb a) || hasRun3 (b :: c :: r)
  | _ => false

/-- Scans for a thrice-repeated CJK pair. -/
def hasPair3b : List Char → Bool
  | a :: b :: c :: d :: e :: f :: r =>
    (isCJKb a && isCJKb b && c = a && d = b && e = a && f = b) ||
      hasPair3b (b :: c :: d :: e :: f :: r)
  | _ => false

theorem cjk_not_comma {c : Char} (h : isCJKb c = true) : ¬ (c = '，') := by
  intro he
  rw [he] at h
  exact absurd h (by decide)

theorem cjk_ne_stop {c : Char} (h : isCJKb c = true) : c ≠ '。' := by
  intro he
  rw [he] at h
  exact absurd h (by decide)

theorem noTriple_of_checker : ∀ (n : Nat) (l : List Char), l.length ≤ n →
    hasRun3 l = false → noTriple l := by
  intro n
  induction n with
  | zero =>
    intro l hl _ c _ hinf
    have he : l = [] := List.eq_nil_of_length_eq_zero (Nat.le_zero.mp hl)
    subst he
    exact absurd (List.infix_nil.mp hinf) (by simp)
  | succ n ih =>
    intro l hl hch c hc hinf
    match l with
    | [] => exact absurd (List.infix_nil.mp hinf) (by simp)
    | a :: rest =>
      rcases List.infix_cons_iff.mp hinf with hpre | hinf2
      · obtain ⟨rfl, h2⟩ := List.cons_prefix_cons.mp hpre
        obtain ⟨t, ht⟩ := h2
        rw [← ht] at hch
        unfold hasRun3 at hch
        simp [hc] at hch
      · refine ih rest (by simp at hl; omega) ?_ c hc hinf2
        match rest with
        | [] => rfl
        | [x] => rfl
        | x :: y :: r =>
          unfold hasRun3 at hch
          exact (Bool.or_eq_false_iff.mp hch).2

theorem noPair3_of_checker : ∀ (n : Nat) (l : List Char), l.length ≤ n →
    hasPair3b l = false → noPair3 l := by
  intro n
  induction n with
  | zero =>
    intro l hl _ a b _ _ hinf
    have he : l = [] := List.eq_nil_of_length_eq_zero (Nat.le_zero.mp hl)
    subst he
    exact absurd (List.infix_nil.mp hinf) (by simp)
  | succ n ih =>
    intro l hl hch a b ha hb hinf
    match l with
    | [] => exact absurd (List.infix_nil.mp hinf) (by simp)
    | x :: rest =>
      rcases List.infix_cons_iff.mp hinf with hpre | hinf2
      · obtain ⟨rfl, h2⟩ := List.cons_prefix_cons.mp hpre
        obtain ⟨t, ht⟩ := h2
        rw [← ht] at hch
        unfold hasPair3b at hch
        simp [ha, hb] at hch
      · refine ih rest (by simp at hl; omega) ?_ a b ha hb hinf2
        match rest with
        | [] => rfl
        | [x1] => rfl
        | [x1, x2] => rfl
        | [x1, x2, x3] => rfl
        | [x1, x2, x3, x4] => rfl
        | x1 :: x2 :: x3 :: x4 :: x5 :: r =>
          unfold hasPair3b at hch
          exact (Bool.or_eq_false_iff.mp hch).2

/-! ## Claim theorem: pipeline idempotence (C6) -/

/-- C6: for texts with no filler characters, no collapsible repetition
(neither a run of three equal CJK characters nor a thrice-repeated CJK
pair), and no spoken-numeral characters, the pipeline with ITN enabled is
idempotent. -/
theorem pipeline_idempotent (ord l : List Char)
    (hord : ∀ f ∈ ord, f ∈ fillerL)
    (hfiller : ∀ c ∈ l, c ∉ fillerL)
    (htrip : noTriple l) (hpair : noPair3 l)
    (hnum : ∀ c ∈ l, c ∉ numeralL) :
    postprocessA ord (postprocessA ord l true) true = postprocessA ord l true := by
  have hv : lastNWS (stripL l) := lastNWS_stripL l
  have hrun : ∀ x : List Char, (∀ c ∈ x, c ∉ fillerL) → noTriple x → noPair3 x →
      (∀ c ∈ x, c ∉ numeralL) →
      postprocessA ord x true = tidy (stripL x) := by
    intro x hf ht hp hn
    unfold postprocessA
    rw [if_pos rfl]
    rw [cleanFiller_id hord hf,
      mergeReps_id (noTriple_mono (stripL_inf x) ht)
        (noPair3_mono (stripL_inf x) hp),
      applyItnA_id (fun c hc => hn c (stripL_subset c hc))]
  rw [hrun l hfiller htrip hpair hnum]
  have hwl : lastNWS (subst mPunct (stripL l)) :=
    lastNWS_subst_mPunct _ _ (le_refl _) hv
  have hchars : ∀ c ∈ tidy (stripL l), c ∈ l ∨ c = '，' ∨ c = '。' := by
    intro c hc
    unfold tidy at hc
    have hc1 := stripL_subset c hc
    rcases subTrail_subset hwl c hc1 with h | h
    · rcases @subst_subset mPunct ['，']
        (fun s kr hmk x hx => by rw [(mPunct_some hmk).2] at hx; exact hx)
        _ _ (le_refl _) c h with h2 | h2
      · exact Or.inl (stripL_subset c h2)
      · simp at h2
        exact Or.inr (Or.inl h2)
    · exact Or.inr (Or.inr h)
  have htransf : ∀ pat : List Char, (∀ c ∈ pat, isCJKb c = true) →
      pat <:+: tidy (stripL l) → pat <:+: l := by
    intro pat hcjk hinf
    unfold tidy at hinf
    have h1 := hinf.trans (stripL_inf _)
    have h2 := infix_subTrail hwl
      (fun hmem => cjk_ne_stop (hcjk _ hmem) rfl) h1
    have h3 := subst_infix_rev (P := fun c => c = '，')
      (fun s kr hmk => by
        obtain ⟨-, hr⟩ := mPunct_some hmk
        rw [hr]
        exact ⟨by simp, by simp⟩)
      (fun c hcm => cjk_not_comma (hcjk c hcm)) _ _ (le_refl _) h2
    exact h3.trans (stripL_inf l)
  rw [hrun (tidy (stripL l))
    (fun c hc hcf => by
      rcases hchars c hc with h | h | h
      · exact hfiller c h hcf
      · rw [h] at hcf
        exact absurd hcf (by decide)
      · rw [h] at hcf
        exact absurd hcf (by decide))
    (fun c hcjk hinf => htrip c hcjk (htransf [c, c, c]
      (by
        intro x hx
        simp at hx
        rw [hx]
        exact hcjk) hinf))
    (fun a b ha hb hinf => hpair a b ha hb (htransf [a, b, a, b, a, b]
      (by
        intro x hx
        simp at hx
        rcases hx with rfl | rfl | rfl | rfl | rfl | rfl <;> first | exact ha | exact hb) hinf))
    (fun c hc hcn => by
      rcases hchars c hc with h | h | h
      · exact hnum c h hcn
      · rw [h] at hcn
        exact absurd hcn (by decide)
      · rw [h] at hcn
        exact absurd hcn (by decide))]
  rw [show stripL (tidy (stripL l)) = tidy (stripL l) from stripL_idem _]
  exact tidy_idem hv

/-- Witness for C6 at a concrete normalized text. -/
theorem pipeline_idempotent_witness :
    postprocessA fillerL (postprocessA fillerL "你好，世界。".data true) true =
      postprocessA fillerL "你好，世界。".data true := by
  refine pipeline_idempotent fillerL "你好，世界。".data (by decide) (by decide)
    (noTriple_of_checker "你好，世界。".data.length _ (le_refl _) (by decide))
    (noPair3_of_checker "你好，世界。".data.length _ (le_refl _) (by decide))
    (by decide)

/-! ## Lemmas about the segment merger -/

/-- A well-formed segment: all four dictionary keys are present. -/
def wfSeg (s : Segment) : Prop :=
  s.startT.isSome ∧ s.endT.isSome ∧ s.speaker.isSome ∧ s.text.isSome

theorem textConcat_cons (x : Segment) (l : List Segment) :
    textConcat (x :: l) = x.text.getD "" ++ textConcat l := rfl

theorem mergeWalk_conserves (rest : List Segment) :
    ∀ cur : Segment, cur.endT.isSome → (∀ s ∈ rest, s.endT.isSome) →
      ∃ out, mergeWalk cur rest = some out ∧
        textConcat out = cur.text.getD "" ++ textConcat rest ∧
        out.length ≤ rest.length + 1 := by
  induction rest with
  | nil =>
    intro cur _ _
    exact ⟨[cur], rfl, by simp [textConcat], by simp⟩
  | cons s rest ih =>
    intro cur hcur hall
    obtain ⟨e, he⟩ := Option.isSome_iff_exists.mp hcur
    by_cases hc : s.speaker = cur.speaker ∧ s.startT.getD 0 - e < 2
    · obtain ⟨out, h1, h2, h3⟩ :=
        ih { cur with endT := some (s.endT.getD e),
                      text := some (cur.text.getD "" ++ s.text.getD "") }
          (by simp) (fun x hx => hall x (List.mem_cons_of_mem _ hx))
      refine ⟨out, ?_, ?_, ?_⟩
      · rw [show mergeWalk cur (s :: rest) =
            mergeWalk { cur with endT := some (s.endT.getD e),
                                 text := some (cur.text.getD "" ++ s.text.getD "") } rest
            from by simp [mergeWalk, he, hc]]
        exact h1
      · rw [h2, textConcat_cons]
        simp [String.append_assoc]
      · simp only [List.length_cons]
        omega
    · obtain ⟨out, h1, h2, h3⟩ :=
        ih s (hall s (List.mem_cons_self _ _))
          (fun x hx => hall x (List.mem_cons_of_mem _ hx))
      refine ⟨cur :: out, ?_, ?_, ?_⟩
      · simp [mergeWalk, he, hc, h1]
      · rw [textConcat_cons, textConcat_cons, h2]
      · simp only [List.length_cons]
        omega

/-! ## Claim theorems: the segment merger (C3, C4, C5, C10) -/

/-- C5: merge step.  When the next segment `s` has the same speaker as the
accumulator (`none` equal to `none` included) and `s.start - current.end <
2.0`, the accumulator keeps its start, takes `end = s.end` and its text
becomes the direct concatenation, with no inserted separator; in
particular merging `(A,0,2,"x")` and `(A,3,5,"y")` yields `(A,0,5,"xy")`. -/
theorem segmentMerger_merge_step :
    (∀ (cur s : Segment) (rest : List Segment) (e : ℚ),
      cur.endT = some e → s.speaker = cur.speaker → s.startT.getD 0 - e < 2 →
      mergeWalk cur (s :: rest) =
        mergeWalk { cur with endT := some (s.endT.getD e),
                             text := some (cur.text.getD "" ++ s.text.getD "") } rest)
    ∧ mergeSegments [⟨some 0, some 2, some "A", some "x"⟩,
        ⟨some 3, some 5, some "A", some "y"⟩] =
        some [⟨some 0, some 5, some "A", some "xy"⟩] := by
  constructor
  · intro cur s rest e he hsp hgap
    simp [mergeWalk, he, hsp, hgap]
  · norm_num [mergeSegments, mergeWalk]
    rfl

/-- Witness for C5 at concrete segments. -/
theorem segmentMerger_merge_step_witness :
    mergeWalk ⟨some 0, some 2, some "B", some "u"⟩
        [⟨some 3, some 4, some "B", some "v"⟩] =
      mergeWalk ⟨some 0, some 4, some "B", some "uv"⟩ [] := by
  have h := segmentMerger_merge_step.1 ⟨some 0, some 2, some "B", some "u"⟩
    ⟨some 3, some 4, some "B", some "v"⟩ [] 2 rfl rfl (by norm_num)
  simpa using h

/-- C4: merge boundary.  For a consecutive pair with equal speaker, merging
happens iff `s.start - current.end < 2.0` under strict comparison; at a gap
of exactly 2.0 the two segments are emitted separately and unchanged. -/
theorem segmentMerger_boundary (a b : Segment) (e : ℚ) (st : ℚ)
    (he : a.endT = some e) (hs : b.startT = some st) (hsp : b.speaker = a.speaker) :
    mergeSegments [a, b] =
      some (if st - e < 2
        then [{ a with endT := some (b.endT.getD e),
                       text := some (a.text.getD "" ++ b.text.getD "") }]
        else [a, b]) := by
  by_cases hlt : st - e < 2 <;>
    simp [mergeSegments, mergeWalk, hsp, he, hs, hlt]

/-- Witness for C4: a gap of exactly 2.0 seconds does not merge. -/
theorem segmentMerger_boundary_witness :
    mergeSegments [⟨some 0, some 2, some "A", some "x"⟩,
        ⟨some 4, some 6, some "A", some "y"⟩] =
      some [⟨some 0, some 2, some "A", some "x"⟩, ⟨some 4, some 6, some "A", some "y"⟩] := by
  have h := segmentMerger_boundary ⟨some 0, some 2, some "A", some "x"⟩
    ⟨some 4, some 6, some "A", some "y"⟩ 2 4 rfl rfl rfl
  norm_num at h
  exact h

/-- C3 (counterexample): the code does not behave as if missing fields
defaulted to `(0, 0, null, "")`: a merged-into segment whose successor
lacks the `end` key keeps the accumulator's end (here 2), whereas with the
defaults filled in the merged end would be 0. -/
theorem segmentMerger_defaults_counterexample :
    mergeSegments [⟨some 0, some 2, some "A", some "x"⟩, ⟨some 3, none, some "A", some "y"⟩]
      ≠ mergeSegments (List.map fillDefaults
        [⟨some 0, some 2, some "A", some "x"⟩, ⟨some 3, none, some "A", some "y"⟩]) := by
  norm_num [mergeSegments, mergeWalk, fillDefaults]

/-- C3 (amended): missing `start` and `end` default to 0 in the gap
comparison, a missing `speaker` compares as null and missing `text` as
`""`; but on a merge the successor's missing `end` defaults to the
accumulator's current end, not 0. -/
theorem segmentMerger_defaults_amended (a b : Segment) (e : ℚ)
    (he : a.endT = some e) (hsp : b.speaker = a.speaker)
    (hgap : b.startT.getD 0 - e < 2) :
    mergeSegments [a, b] =
      some [{ startT := a.startT, endT := some (b.endT.getD e), speaker := a.speaker,
              text := some (a.text.getD "" ++ b.text.getD "") }] := by
  simp [mergeSegments, mergeWalk, hsp, he, hgap]

/-- Witness for the amended C3: the successor lacks both `start` and
`end`; the gap check reads `start` as 0 and the merged end stays 2. -/
theorem segmentMerger_defaults_amended_witness :
    mergeSegments [⟨some 0, some 2, some "A", some "x"⟩, ⟨none, none, some "A", some "y"⟩]
      = some [⟨some 0, some 2, some "A", some "xy"⟩] := by
  have h := segmentMerger_defaults_amended ⟨some 0, some 2, some "A", some "x"⟩
    ⟨none, none, some "A", some "y"⟩ 2 rfl rfl (by norm_num)
  simpa using h

/-- C10: text conservation.  On a list of well-formed segments the merger
succeeds, the in-order concatenation of output texts equals that of the
input texts, and the output is never longer than the input. -/
theorem segmentMerger_text_conservation (segs : List Segment)
    (h : ∀ s ∈ segs, wfSeg s) :
    ∃ out, mergeSegments segs = some out ∧ textConcat out = textConcat segs ∧
      out.length ≤ segs.length := by
  match segs with
  | [] => exact ⟨[], rfl, rfl, le_refl _⟩
  | s :: rest =>
    obtain ⟨out, h1, h2, h3⟩ := mergeWalk_conserves rest s
      (h s (List.mem_cons_self _ _)).2.1
      (fun x hx => (h x (List.mem_cons_of_mem _ hx)).2.1)
    exact ⟨out, h1, by rw [h2, textConcat_cons], by simpa using h3⟩

/-- Witness for C10 at a concrete three-segment list. -/
theorem segmentMerger_text_conservation_witness :
    ∃ out, mergeSegments [⟨some 0, some 2, some "A", some "x"⟩,
        ⟨some 3, some 5, some "A", some "y"⟩, ⟨some 9, some 11, some "B", some "z"⟩] = some out ∧
      textConcat out = textConcat [⟨some 0, some 2, some "A", some "x"⟩,
        ⟨some 3, some 5, some "A", some "y"⟩, ⟨some 9, some 11, some "B", some "z"⟩] ∧
      out.length ≤ 3 := by
  exact segmentMerger_text_conservation _
    (by intro s hs; fin_cases hs <;> exact ⟨rfl, rfl, rfl, rfl⟩)

end Asr
